import Mathlib

/-!
Verification of the NWChem basis-set / ECP text parser
(pyscf/gto/basis/parse_nwchem.py) against its specification.

The Python module is shallowly embedded: Python strings are `List Char`,
Python floats are `ℚ` (decimal values; every number handled by the module
is a finite decimal literal), exceptions are an explicit `Err` type carried
in `Except`, and a Python function that can fall off the end returning
`None` is modelled with `Option` inside `Except`.  All definitions are
executable and structurally recursive so that concrete runs evaluate by
`decide` / `rfl`.
-/

namespace Nwchem

abbrev Str := List Char

def str (s : String) : Str := s.data

/-! ### Character model (ASCII, as used by the parser's inputs) -/

/-- Python `str.isspace` on the ASCII whitespace characters
(space, tab, newline, carriage return, vertical tab, form feed). -/
def pyIsSpace (c : Char) : Bool :=
  decide (c.toNat = 32 ∨ c.toNat = 9 ∨ c.toNat = 10 ∨ c.toNat = 13 ∨
    c.toNat = 11 ∨ c.toNat = 12)

/-- Python `str.isalpha` on ASCII letters. -/
def pyIsAlpha (c : Char) : Bool :=
  decide ((65 ≤ c.toNat ∧ c.toNat ≤ 90) ∨ (97 ≤ c.toNat ∧ c.toNat ≤ 122))

/-- ASCII decimal digit test. -/
def pyIsDigit (c : Char) : Bool := decide (48 ≤ c.toNat ∧ c.toNat ≤ 57)

/-- Python `str.upper` on one ASCII character. -/
def pyUpperChar (c : Char) : Char :=
  if 97 ≤ c.toNat ∧ c.toNat ≤ 122 then Char.ofNat (c.toNat - 32) else c

/-- Python `str.lower` on one ASCII character. -/
def pyLowerChar (c : Char) : Char :=
  if 65 ≤ c.toNat ∧ c.toNat ≤ 90 then Char.ofNat (c.toNat + 32) else c

def pyUpper (s : Str) : Str := s.map pyUpperChar

def pyLower (s : Str) : Str := s.map pyLowerChar

/-! ### Python string primitives -/

/-- Python `str.strip` (both ends). -/
def pyStrip (s : Str) : Str :=
  ((s.dropWhile pyIsSpace).reverse.dropWhile pyIsSpace).reverse

/-- Python `str.startswith`: `swith s p` is `s.startswith(p)`. -/
def swith : Str → Str → Bool
  | _, [] => true
  | [], _ :: _ => false
  | c :: s, p :: ps => decide (c = p) && swith s ps

/-- Python `s.split('#')[0]`: the text before the first `#`. -/
def splitHash0 (s : Str) : Str := s.takeWhile (fun c => !decide (c = '#'))

/-- Worker for `pySplit`: `acc` is the current token, reversed. -/
def pySplitAux : Str → Str → List Str
  | [], acc => if acc = [] then [] else [acc.reverse]
  | c :: r, acc =>
    if pyIsSpace c then
      if acc = [] then pySplitAux r [] else acc.reverse :: pySplitAux r []
    else pySplitAux r (c :: acc)

/-- Python `str.split()` (split on whitespace runs, no empty tokens). -/
def pySplit (s : Str) : List Str := pySplitAux s []

/-- First whitespace-delimited token, `s.split(None, 1)[0]` when it exists. -/
def firstTok? (s : Str) : Option Str := (pySplit s).head?

/-- Split at every newline, keeping empty pieces (worker for `splitlinesPy`). -/
def splitNl : Str → List Str
  | [] => [[]]
  | c :: r =>
    if c = '\n' then [] :: splitNl r
    else
      match splitNl r with
      | [] => [[c]]
      | h :: t => (c :: h) :: t

/-- Python `str.splitlines` (newline-only model): no trailing empty line. -/
def splitlinesPy (s : Str) : List Str :=
  match s with
  | [] => []
  | _ :: _ => if s.getLast? = some '\n' then (splitNl s).dropLast else splitNl s

/-- Python `sep.join` for a one-character separator. -/
def joinWith (sep : Char) : List Str → Str
  | [] => []
  | [x] => x
  | x :: y :: r => x ++ sep :: joinWith sep (y :: r)

/-- Python `'\n'.join`. -/
def joinLines (ls : List Str) : Str := joinWith '\n' ls

/-- Python `dat.replace('D', 'e')`. -/
def replaceDe (s : Str) : Str := s.map (fun c => if c = 'D' then 'e' else c)

/-! ### Numbers: Python `float` / `int` of a token, and `%15.9f` formatting.

All rational values are built with `mkRat` from integer arithmetic
(no `ℚ` field operations), so concrete runs reduce in the kernel. -/

def dval (c : Char) : ℕ := c.toNat - 48

def digVal (s : Str) : ℕ := s.foldl (fun a c => 10 * a + dval c) 0

def digitChar (d : ℕ) : Char := Char.ofNat (48 + d)

/-- Decimal digits of `n` (big-endian), with `fuel ≥ n` sufficient. -/
def natStrAux : ℕ → ℕ → Str
  | 0, _ => []
  | _ + 1, 0 => []
  | f + 1, n => natStrAux f (n / 10) ++ [digitChar (n % 10)]

/-- Python `str` of a natural number. -/
def natStr (n : ℕ) : Str := if n = 0 then ['0'] else natStrAux (n + 1) n

/-- Python `str` of an integer. -/
def intStr (z : ℤ) : Str :=
  if z < 0 then '-' :: natStr z.natAbs else natStr z.natAbs

/-- Exponent suffix of a float literal (after the `e` / `E` marker). -/
def parseExp (m : ℤ) (fl : ℕ) (s : Str) : Option ℚ :=
  let p : ℤ × Str :=
    match s with
    | '-' :: r => (-1, r)
    | '+' :: r => (1, r)
    | _ => (1, s)
  let ds := p.2.takeWhile pyIsDigit
  let s2 := p.2.dropWhile pyIsDigit
  if ds = [] ∨ s2 ≠ [] then none
  else
    let e : ℤ := p.1 * (digVal ds : ℤ)
    if 0 ≤ e then some (mkRat (m * (10 : ℤ) ^ e.toNat) ((10 : ℕ) ^ fl))
    else some (mkRat m ((10 : ℕ) ^ fl * (10 : ℕ) ^ (-e).toNat))

/-- A float literal split into integer digits, fraction digits and the rest
(the exponent suffix, which must be empty or start with `e` / `E`). -/
def parseUFloatFrac (sg : ℤ) (ids fds s2 : Str) : Option ℚ :=
  if ids = [] ∧ fds = [] then none
  else
    match s2 with
    | [] =>
      some (mkRat (sg * ((digVal ids : ℤ) * (10 : ℤ) ^ fds.length +
        (digVal fds : ℤ))) ((10 : ℕ) ^ fds.length))
    | 'e' :: r =>
      parseExp (sg * ((digVal ids : ℤ) * (10 : ℤ) ^ fds.length +
        (digVal fds : ℤ))) fds.length r
    | 'E' :: r =>
      parseExp (sg * ((digVal ids : ℤ) * (10 : ℤ) ^ fds.length +
        (digVal fds : ℤ))) fds.length r
    | _ => none

/-- The optional `.`-and-fraction part after the integer digits. -/
def parseUFloatCore (sg : ℤ) (ids s1 : Str) : Option ℚ :=
  match s1 with
  | '.' :: r => parseUFloatFrac sg ids (r.takeWhile pyIsDigit) (r.dropWhile pyIsDigit)
  | _ => parseUFloatFrac sg ids [] s1

/-- Unsigned decimal float literal, with sign `sg` already factored in. -/
def parseUFloat (sg : ℤ) (s : Str) : Option ℚ :=
  parseUFloatCore sg (s.takeWhile pyIsDigit) (s.dropWhile pyIsDigit)

/-- Python `float(token)` on the decimal / scientific literals the format uses. -/
def parseFloat? (s : Str) : Option ℚ :=
  match s with
  | [] => parseUFloat 1 []
  | c :: r =>
    if c = '-' then parseUFloat (-1) r
    else if c = '+' then parseUFloat 1 r
    else parseUFloat 1 (c :: r)

/-- Python `int(token)`. -/
def parseInt? (s : Str) : Option ℤ :=
  let p : ℤ × Str :=
    match s with
    | '-' :: r => (-1, r)
    | '+' :: r => (1, r)
    | _ => (1, s)
  if p.2 ≠ [] ∧ p.2.all pyIsDigit then some (p.1 * (digVal p.2 : ℤ)) else none

/-- `float(x)` for each token; Python's list comprehension fails on the first
bad token, modelled by `none`. -/
def parseFloats : List Str → Option (List ℚ)
  | [] => some []
  | t :: ts =>
    match parseFloat? t with
    | none => none
    | some q => (parseFloats ts).map (q :: ·)

/-- `q` scaled by `10^9` and rounded to the nearest integer (half away from
zero): the integer printed by `%.9f` in the decimal model. -/
def scale9 (q : ℚ) : ℤ :=
  let a : ℕ := (2 * q.num.natAbs * 10 ^ 9 + q.den) / (2 * q.den)
  if q.num < 0 then -(a : ℤ) else (a : ℤ)

/-- `q` rounded to 9 decimal digits: the value recovered by parsing the
`%.9f` rendering of `q`. -/
def round9 (q : ℚ) : ℚ := mkRat (scale9 q) (10 ^ 9)

/-- Zero-pad a digit string on the left to 9 digits. -/
def fracPad9 (s : Str) : Str := List.replicate (9 - s.length) '0' ++ s

/-- The digits of `'%.9f' % q` (sign, integer part, point, 9 fraction digits). -/
def numStr9 (q : ℚ) : Str :=
  let n := scale9 q
  let a := n.natAbs
  (if n < 0 then ['-'] else []) ++ natStr (a / 10 ^ 9) ++ '.' :: fracPad9 (natStr (a % 10 ^ 9))

/-- Python `'%15.9f' % q`: the digits, left-padded with spaces to width 15. -/
def fmt159 (q : ℚ) : Str := List.replicate (15 - (numStr9 q).length) ' ' ++ numStr9 q

/-! ### Data model -/

/-- One basis shell: the Python list `[l, row, row, ...]` (`parse_nwchem`
internal format) split into its angular momentum and its data rows. -/
structure Shell where
  l : ℕ
  rows : List (List ℚ)
deriving DecidableEq, Repr

/-- One ECP block: the Python list `[l, [[rows], [rows], [rows], [rows]]]`. -/
abbrev EcpBlock := ℤ × List (List (List ℚ))

/-- The result of `_parse_ecp`: `[nelec, blocks]`. -/
abbrev Ecp := ℤ × List EcpBlock

instance decEqEcpBlock : DecidableEq EcpBlock := inferInstance

instance decEqEcpBlocks : DecidableEq (List EcpBlock) := inferInstance

instance decEqEcp : DecidableEq Ecp := inferInstance

/-- The Python exceptions / error exits the module can take. -/
inductive Err
  | basisNotFound
  | ecpNotFound
  | badSymbol
  | keyError
  | indexError
  | nameError
  | valueError
deriving DecidableEq, Repr

/-- `SPDF = ('S', 'P', 'D', 'F', 'G', 'H', 'I', 'K')`. -/
def SPDFl : Str := ['S', 'P', 'D', 'F', 'G', 'H', 'I', 'K']

/-- `MAPSPDF` as a lookup: shell-letter token to angular momentum. -/
def MAPSPDF (key : Str) : Option ℕ :=
  if key = ['S'] then some 0
  else if key = ['P'] then some 1
  else if key = ['D'] then some 2
  else if key = ['F'] then some 3
  else if key = ['G'] then some 4
  else if key = ['H'] then some 5
  else if key = ['I'] then some 6
  else if key = ['K'] then some 7
  else none

/-! ### `_std_symbol` (external collaborator) -/

/-- Modelled from the spec: `pyscf.gto.mole._std_symbol` is not part of the
sources; the spec describes it as the external standard element-symbol
normalizer called before every symbol comparison (e.g. stripping an
isotope-number prefix).  It is modelled as: drop a leading run of digits,
accept only a nonempty purely-alphabetic name, and return it capitalized
(first letter upper case, rest lower case); anything else is an unknown
element and fails. -/
def _std_symbol (s : Str) : Option Str :=
  match s.dropWhile pyIsDigit with
  | [] => none
  | c :: r =>
    if (c :: r).all pyIsAlpha then some (pyUpperChar c :: pyLower r) else none

/-! ### The basis parser -/

/-- State of `_parse`'s scan: the shells built so far (`basis_add`) and the
shell-type token of the last header line (Python's `key`, unbound = `none`). -/
structure PState where
  shells : List Shell
  key : Option Str
deriving DecidableEq

/-- `basis_add[-1].append(row)`; `IndexError` on an empty list. -/
def appendLast (shells : List Shell) (row : List ℚ) : Except Err (List Shell) :=
  match shells.reverse with
  | [] => .error .indexError
  | p :: rest => .ok (rest.reverse ++ [{ p with rows := p.rows ++ [row] }])

/-- `basis_add[-2].append(rowS); basis_add[-1].append(rowP)`. -/
def appendSP (shells : List Shell) (rowS rowP : List ℚ) : Except Err (List Shell) :=
  match shells.reverse with
  | p :: s :: rest =>
    .ok (rest.reverse ++
      [{ s with rows := s.rows ++ [rowS] }, { p with rows := p.rows ++ [rowP] }])
  | _ => .error .indexError

/-- One iteration of the `_parse` loop body. -/
def parseLine (st : PState) (line : Str) : Except Err PState :=
  match pyStrip line with
  | [] => .ok st
  | c :: rest =>
    if c = '#' then .ok st
    else if pyIsAlpha c then
      match (pySplit (c :: rest))[1]? with
      | none => .error .indexError
      | some key =>
        if key = str "SP" then .ok ⟨st.shells ++ [⟨0, []⟩, ⟨1, []⟩], some key⟩
        else
          match MAPSPDF key with
          | some l => .ok ⟨st.shells ++ [⟨l, []⟩], some key⟩
          | none => .error .keyError
    else
      match parseFloats (pySplit (replaceDe (c :: rest))) with
      | none => .error .valueError
      | some nums =>
        match st.key with
        | none => .error .nameError
        | some key =>
          if key = str "SP" then
            match nums with
            | e :: c1 :: c2 :: _ =>
              match appendSP st.shells [e, c1] [e, c2] with
              | .ok out => .ok ⟨out, st.key⟩
              | .error er => .error er
            | _ => .error .indexError
          else
            match appendLast st.shells nums with
            | .ok out => .ok ⟨out, st.key⟩
            | .error er => .error er

/-- The `for line in raw_basis` loop of `_parse`. -/
def processLines : List Str → PState → Except Err PState
  | [], st => .ok st
  | l :: ls, st =>
    match parseLine st l with
    | .ok st2 => processLines ls st2
    | .error e => .error e

/-- The final reordering of `_parse`:
`for l in range(MAXL): bsort.extend([b for b in basis_add if b[0] == l])`. -/
def bsort8 (bs : List Shell) : List Shell :=
  ((List.range 8).map (fun l => bs.filter (fun b => b.l == l))).flatten

/-- `_parse(raw_basis)`. -/
def _parse (raw : List Str) : Except Err (List Shell) :=
  match processLines raw ⟨[], none⟩ with
  | .ok st => .ok (bsort8 st.shells)
  | .error e => .error e

/-- The comment / `END` / `BASIS` filter `parse` applies to each line. -/
def cookLine (dat : Str) : Option Str :=
  let x := pyUpper (pyStrip (splitHash0 dat))
  if x ≠ [] ∧ ¬swith x (str "END") ∧ ¬swith x (str "BASIS") then some x else none

def cookLines (s : Str) : List Str := (splitlinesPy s).filterMap cookLine

/-- A match of `BASIS_SET_DELIMITER = re.compile('# *BASIS SET.*\n')` at the
head of `s`: returns the text after the match. -/
def delimMatch (s : Str) : Option Str :=
  match s with
  | '#' :: r =>
    let r2 := r.dropWhile (fun c => decide (c = ' '))
    if swith r2 (str "BASIS SET") then
      match (r2.drop 9).dropWhile (fun c => !decide (c = '\n')) with
      | '\n' :: rest => some rest
      | _ => none
    else none
  | _ => none

/-- Leftmost delimiter match in `s`: the text before it and after it. -/
def findDelim : Str → Option (Str × Str)
  | [] => none
  | c :: r =>
    match delimMatch (c :: r) with
    | some rest => some ([], rest)
    | none =>
      match findDelim r with
      | some p => some (c :: p.1, p.2)
      | none => none

/-- `re.split(BASIS_SET_DELIMITER, s)`, with enough fuel (each match consumes
at least one character, see `findDelim_length`). -/
def reSplitGo : ℕ → Str → List Str
  | 0, s => [s]
  | f + 1, s =>
    match findDelim s with
    | none => [s]
    | some p => p.1 :: reSplitGo f p.2

def reSplitBasis (s : Str) : List Str := reSplitGo s.length s

/-- `_search_seg(raw_data, symb)`: first chunk after the leading one whose
first token is the symbol. -/
def _search_seg (raw : List Str) (symb : Str) : Option Str :=
  (raw.drop 1).find? (fun dat => decide (firstTok? dat = some symb))

/-- `parse(string, symb)`. -/
def parse (string : Str) (symb : Option Str) : Except Err (List Shell) :=
  match symb with
  | none => _parse (cookLines string)
  | some sy =>
    match _std_symbol sy with
    | none => .error .badSymbol
    | some s =>
      match _search_seg (reSplitBasis string) s with
      | none => .error .basisNotFound
      | some seg => _parse (cookLines seg)

/-! ### The ECP parser -/

/-- State of `_parse_ecp`'s scan: blocks built so far (`ecp_add`) and the
electron count once a `NELEC` line was seen.  Python's `by_ang` variable
always aliases the last block's slot list; it is unbound iff no block header
was seen yet, i.e. iff `blocks` is empty. -/
structure EState where
  blocks : List EcpBlock
  nelec : Option ℤ
deriving DecidableEq

/-- Python list indexing `ba[l]` for `l : ℤ`: in-range nonnegative indices,
or negative indices counted from the end. -/
def pyIdx (n : ℕ) (l : ℤ) : ℤ := if l < 0 then (n : ℤ) + l else l

/-- One iteration of the `_parse_ecp` loop body. -/
def ecpLine (st : EState) (line : Str) : Except Err EState :=
  match pyStrip line with
  | [] => .ok st
  | c :: rest =>
    if c = '#' then .ok st
    else if pyIsAlpha c then
      match (pySplit (c :: rest))[1]? with
      | none => .error .indexError
      | some key =>
        if key = str "NELEC" then
          match (pySplit (c :: rest))[2]? with
          | none => .error .indexError
          | some t =>
            match parseInt? t with
            | none => .error .valueError
            | some n => .ok ⟨st.blocks, some n⟩
        else if key = str "UL" then
          .ok ⟨st.blocks ++ [(-1, [[], [], [], []])], st.nelec⟩
        else
          match MAPSPDF key with
          | some l => .ok ⟨st.blocks ++ [((l : ℤ), [[], [], [], []])], st.nelec⟩
          | none => .error .keyError
    else
      match pySplit (replaceDe (c :: rest)) with
      | [] => .error .indexError
      | t0 :: ts =>
        match parseInt? t0 with
        | none => .error .valueError
        | some l =>
          match st.blocks.reverse with
          | [] => .error .nameError
          | (bl, ba) :: prev =>
            if 0 ≤ pyIdx ba.length l ∧ pyIdx ba.length l < (ba.length : ℤ) then
              match parseFloats ts with
              | none => .error .valueError
              | some row =>
                .ok ⟨prev.reverse ++
                  [(bl, ba.set (pyIdx ba.length l).toNat
                    (ba.getD (pyIdx ba.length l).toNat [] ++ [row]))], st.nelec⟩
            else .error .indexError

/-- The `for line in raw_ecp` loop of `_parse_ecp`. -/
def processEcpLines : List Str → EState → Except Err EState
  | [], st => .ok st
  | l :: ls, st =>
    match ecpLine st l with
    | .ok st2 => processEcpLines ls st2
    | .error e => .error e

/-- `range(-1, MAXL)`. -/
def lRange : List ℤ := [-1, 0, 1, 2, 3, 4, 5, 6, 7]

/-- The final reordering of `_parse_ecp`. -/
def ecpSortBlocks (bs : List EcpBlock) : List EcpBlock :=
  (lRange.map (fun l => bs.filter (fun b => b.1 == l))).flatten

/-- `_parse_ecp(raw_ecp)`: `.ok none` models Python falling off the end and
returning `None` when no `NELEC` line was seen. -/
def _parse_ecp (raw : List Str) : Except Err (Option Ecp) :=
  match processEcpLines raw ⟨[], none⟩ with
  | .error e => .error e
  | .ok st =>
    match st.nelec with
    | some n => .ok (some (n, ecpSortBlocks st.blocks))
    | none => .ok none

/-- The comment / `END` / `ECP` filter `parse_ecp` applies to each line. -/
def cookEcpLine (dat : Str) : Option Str :=
  let x := pyUpper (pyStrip (splitHash0 dat))
  if x ≠ [] ∧ ¬swith x (str "END") ∧ ¬swith x (str "ECP") then some x else none

/-- The segment scan of `parse_ecp`: strip-uppercase each line, indexing its
first character (`IndexError` on a blank line), stop before the first
alphabetic line whose first token is not the symbol. -/
def segScan (symbU : Str) : List Str → Except Err (List Str)
  | [] => .ok []
  | d :: rest =>
    match pyUpper (pyStrip d) with
    | [] => .error .indexError
    | c :: r =>
      if pyIsAlpha c ∧ firstTok? (c :: r) ≠ some symbU then .ok []
      else
        match segScan symbU rest with
        | .ok seg => .ok ((c :: r) :: seg)
        | .error e => .error e

/-- The `for i, dat in enumerate(raw_data)` search loop of `parse_ecp`:
`i` stops at the first line whose first token is the symbol, or at the last
index when no line matches. -/
def findSymIdx (sym : Str) : List Str → ℕ
  | [] => 0
  | d :: rest =>
    if firstTok? d = some sym then 0
    else
      match rest with
      | [] => 0
      | _ :: _ => findSymIdx sym rest + 1

/-- `parse_ecp(string, symb)`. -/
def parse_ecp (string : Str) (symb : Option Str) : Except Err (Option Ecp) :=
  match symb with
  | none => _parse_ecp ((splitlinesPy string).filterMap cookEcpLine)
  | some sy =>
    match _std_symbol sy with
    | none => .error .badSymbol
    | some s =>
      let raw := splitlinesPy string
      match raw with
      | [] => .error .nameError
      | _ :: _ =>
        let i := findSymIdx s raw
        if i + 1 = raw.length then .error .ecpNotFound
        else
          match segScan (pyUpper s) (raw.drop i) with
          | .error e => .error e
          | .ok seg => _parse_ecp (seg.filterMap cookEcpLine)

/-! ### `convert_basis_to_nwchem` -/

/-- `'%-2s' % s`: left-justify to width at least 2. -/
def padTo2 (s : Str) : Str := s ++ List.replicate (2 - s.length) ' '

/-- `'%-2s    %s' % (symb, SPDF[l])`. -/
def headerLine (s : Str) (letter : Char) : Str := padTo2 s ++ str "    " ++ [letter]

/-- `' '.join('%15.9f' % x for x in row)`. -/
def fmtRow (row : List ℚ) : Str := joinWith ' ' (row.map fmt159)

/-- `len(b[1]) - 1` for every shell: fails (`IndexError`) if a shell has no
data row. -/
def firstRows? : List Shell → Option (List (List ℚ))
  | [] => some []
  | b :: bs =>
    match b.rows with
    | [] => none
    | r :: _ => (firstRows? bs).map (r :: ·)

/-- `prim_to_ctr[l][i]` as a sum over the positions of `l` in `ls`. -/
def sumWhere (ls : List ℕ) (vs : List ℤ) (l : ℕ) : ℤ :=
  ((ls.zip vs).filter (fun p => p.1 == l)).foldl (fun a p => a + p.2) 0

def insertAsc (x : ℕ) : List ℕ → List ℕ
  | [] => [x]
  | y :: ys => if x ≤ y then x :: y :: ys else y :: insertAsc x ys

def sortAsc : List ℕ → List ℕ
  | [] => []
  | x :: xs => insertAsc x (sortAsc xs)

def dedupAdj : List ℕ → List ℕ
  | [] => []
  | [x] => [x]
  | x :: y :: r => if x = y then dedupAdj (y :: r) else x :: dedupAdj (y :: r)

/-- CPython `set(ls)` iteration for small naturals: ascending unique values. -/
def sortedDedup (ls : List ℕ) : List ℕ := dedupAdj (sortAsc ls)

/-- The two `'%s%s' % (count, letter)` column lists of the comment line. -/
def goComment (ls : List ℕ) (nprims nctrs : List ℤ) :
    List ℕ → Option (List Str × List Str)
  | [] => some ([], [])
  | l :: rest =>
    match SPDFl[l]? with
    | none => none
    | some letter =>
      match goComment ls nprims nctrs rest with
      | none => none
      | some p =>
        some ((intStr (sumWhere ls nprims l) ++ [pyLowerChar letter]) :: p.1,
          (intStr (sumWhere ls nctrs l) ++ [pyLowerChar letter]) :: p.2)

/-- Pass 2 of `convert_basis_to_nwchem`: header plus formatted rows, per shell. -/
def renderShells (s : Str) : List Shell → Option (List Str)
  | [] => some []
  | b :: bs =>
    match SPDFl[b.l]? with
    | none => none
    | some letter =>
      match renderShells s bs with
      | none => none
      | some rest => some ((headerLine s letter :: b.rows.map fmtRow) ++ rest)

/-- `convert_basis_to_nwchem(symb, basis)`. -/
def convert_basis_to_nwchem (symb : Str) (basis : List Shell) : Except Err Str :=
  match _std_symbol symb with
  | none => .error .badSymbol
  | some s =>
    let ls := basis.map (·.l)
    let nprims : List ℤ := basis.map (fun b => (b.rows.length : ℤ))
    match firstRows? basis with
    | none => .error .indexError
    | some frs =>
      let nctrs : List ℤ := frs.map (fun r => (r.length : ℤ) - 1)
      match goComment ls nprims nctrs (sortedDedup ls) with
      | none => .error .indexError
      | some cols =>
        let comment := str "#BASIS SET: (" ++ joinWith ',' cols.1 ++
          str ") -> [" ++ joinWith ',' cols.2 ++ str "]"
        match renderShells s basis with
        | none => .error .indexError
        | some body => .ok (joinLines (comment :: body))

instance decEqExcept {ε α : Type} [DecidableEq ε] [DecidableEq α] :
    DecidableEq (Except ε α) := fun x y =>
  match x, y with
  | .ok a, .ok b =>
    if h : a = b then isTrue (by rw [h]) else isFalse (by simp [h])
  | .error a, .error b =>
    if h : a = b then isTrue (by rw [h]) else isFalse (by simp [h])
  | .ok _, .error _ => isFalse (by intro hc; exact Except.noConfusion hc)
  | .error _, .ok _ => isFalse (by intro hc; exact Except.noConfusion hc)

/-- Each number of each row rounded to its 9-decimal-digit rendering. -/
def roundShell (b : Shell) : Shell := ⟨b.l, b.rows.map (fun r => r.map round9)⟩

def round9Basis (bs : List Shell) : List Shell := bs.map roundShell

/-! ### Derived predicates used by the statements -/

/-- The common shape of the two reorder loops (`bsort8`, `ecpSortBlocks`):
concatenated key-filters over a key list. -/
def joinFilters {α K : Type} [BEq K] (key : α → K) (ks : List K) (bs : List α) :
    List α :=
  (ks.map (fun k => bs.filter (fun b => key b == k))).flatten

/-- Shells are in ascending order of the `l` stored at position 0. -/
def sortedByL (bs : List Shell) : Prop := bs.Pairwise (fun a b => a.l ≤ b.l)

/-- Shells sharing one `l` keep their relative order from `orig` in `out`. -/
def stableByL (out orig : List Shell) : Prop :=
  ∀ k : ℕ, out.filter (fun b => b.l == k) = orig.filter (fun b => b.l == k)

/-- Invariant of every shell `_parse` ever builds: `l` is an `MAPSPDF` value
and every stored row is nonempty. -/
def ShellInv (sh : Shell) : Prop := sh.l < 8 ∧ ∀ r ∈ sh.rows, r ≠ []

/-- ECP blocks are in ascending `l`, i.e. the `l = -1` (UL) blocks first. -/
def sortedEcp (bs : List EcpBlock) : Prop := bs.Pairwise (fun a b => a.1 ≤ b.1)

/-- ECP blocks sharing one `l` keep their relative order from `orig`. -/
def stableEcp (out orig : List EcpBlock) : Prop :=
  ∀ k : ℤ, out.filter (fun b => b.1 == k) = orig.filter (fun b => b.1 == k)

/-- Invariant of every block `_parse_ecp` ever builds: its `l` is `-1` (UL)
or an `MAPSPDF` value, i.e. a member of `range(-1, MAXL)`. -/
def EcpInv (b : EcpBlock) : Prop := b.1 ∈ lRange

/-- The line is classified by `_parse` as a data line: nonempty after
stripping, not a comment, first character not alphabetic. -/
def isDataLineB (d : Str) : Bool :=
  match pyStrip d with
  | [] => false
  | c :: _ => !decide (c = '#') && !pyIsAlpha c

/-- The float list `_parse` reads from a data line. -/
def dataFloats (d : Str) : Option (List ℚ) :=
  parseFloats (pySplit (replaceDe (pyStrip d)))

/-- The line is classified by `_parse` as a header line whose shell-type
token (second whitespace token) is `SP`. -/
def isSPHeaderB (hdr : Str) : Bool :=
  match pyStrip hdr with
  | [] => false
  | c :: rest =>
    !decide (c = '#') && pyIsAlpha c &&
      decide ((pySplit (c :: rest))[1]? = some (str "SP"))

/-- The characters `%15.9f` output consists of, besides padding spaces. -/
def numCharB (c : Char) : Bool := pyIsDigit c || decide (c = '-') || decide (c = '.')

/-- The segment scan of `parse_ecp` keeps this line and continues: it is
nonblank after stripping and is not a terminator (an alphabetic-starting
line whose first token differs from the uppercased symbol). -/
def segKeepB (symbU : Str) (d : Str) : Bool :=
  match pyUpper (pyStrip d) with
  | [] => false
  | c :: r => !(pyIsAlpha c && !decide (firstTok? (c :: r) = some symbU))

/-- `ds` is a list of data lines whose float lists are given (elementwise)
by `rows`: an exponent, a left coefficient, a right coefficient, and any
further ignored numbers. -/
def spRowsB : List Str → List (ℚ × ℚ × ℚ × List ℚ) → Bool
  | [], [] => true
  | d :: ds, x :: xs =>
    isDataLineB d &&
      decide (dataFloats d = some (x.1 :: x.2.1 :: x.2.2.1 :: x.2.2.2)) &&
      spRowsB ds xs
  | _, _ => false

/-! ## Claims -/

/-- Claim C7: `parse_ecp` with no element-symbol argument, applied to the
five-line input `NA NELEC 10 / NA UL / 1 0.5 10.0 / NA S / 0 1.0 5.0`,
returns the `Ecp` pair `(10, [[-1, [[], [[0.5, 10.0]], [], []]],
[0, [[[1.0, 5.0]], [], [], []]]])`: the leading power digit of each data
line selects which of the four power slots of the current block receives
the `[exponent, coefficient]` row. -/
theorem claim_C7_ecp_example :
    parse_ecp (str "NA NELEC 10\nNA UL\n1 0.5 10.0\nNA S\n0 1.0 5.0") none =
      .ok (some (10, [(-1, [[], [[mkRat 1 2, mkRat 10 1]], [], []]),
        (0, [[[mkRat 1 1, mkRat 5 1]], [], [], []])])) := by decide

/-- Claim C2 (code bug): the spec requires a `MissingElectronCount` error
when an ECP text has no `NELEC` header, but `_parse_ecp` falls off the end
and silently returns `None` (modelled `.ok none`) on such input. -/
theorem claim_C2_missing_nelec_returns_none :
    parse_ecp (str "NA UL\n1 0.5 10.0") none = .ok none := by decide

/-- Claim C3 (code bug): the spec requires a descriptive parse error for a
numeric data line appearing before any header line, but `_parse` reads the
unbound variable `key` there, so `parse` fails with a `NameError`
(an unbound-reference fault), not a parse error. -/
theorem claim_C3_data_before_header_name_error :
    parse (str "1.0 2.0") none = .error .nameError := by decide

/-- If the text contains no `# BASIS SET` delimiter match, `re.split`
returns the whole text as its single chunk. -/
theorem reSplitBasis_of_no_delim (s : Str) (h : findDelim s = none) :
    reSplitBasis s = [s] := by
  unfold reSplitBasis
  cases s.length with
  | zero => rfl
  | succ n => simp [reSplitGo, h]

/-- Claim C8: when an element symbol is supplied, `parse` searches only the
chunks after the first `# BASIS SET` delimiter match, so on any text with no
delimiter it fails with the `Basis not found` `KeyError`, even if the text
itself is that element's basis block. -/
theorem claim_C8_no_delimiter_not_found (t sym s : Str)
    (hs : _std_symbol sym = some s) (hd : findDelim t = none) :
    parse t (some sym) = .error .basisNotFound := by
  simp [parse, hs, reSplitBasis_of_no_delim t hd, _search_seg]

/-- Witness for C8 at a concrete input: the text is exactly a `Na` basis
block with matching header lines, yet lookup of `Na` fails. -/
theorem claim_C8_witness :
    parse (str "Na S\n1.0 0.5") (some (str "Na")) = .error .basisNotFound :=
  claim_C8_no_delimiter_not_found _ _ (str "Na") (by decide) (by decide)

/-- The `enumerate` loop stops at index `pre.length` when no earlier line's
first token is the symbol. -/
theorem findSymIdx_last (sym : Str) (pre : List Str) (last : Str)
    (hp : ∀ d ∈ pre, firstTok? d ≠ some sym) :
    findSymIdx sym (pre ++ [last]) = pre.length := by
  induction pre with
  | nil => cases hm : decide (firstTok? last = some sym) <;>
      simp_all [findSymIdx]
  | cons d ds ih =>
    have hd : firstTok? d ≠ some sym := hp d (List.mem_cons_self d ds)
    rcases hds : ds ++ [last] with _ | ⟨x, xs⟩
    · simp at hds
    · have := ih (fun e he => hp e (List.mem_cons_of_mem d he))
      rw [hds] at this
      simp [findSymIdx, hd, hds, this]

/-- Claim C10: `parse_ecp` raises its `ECP not found` `KeyError` whenever the
search loop stops at the last line, so when the requested symbol first occurs
as the first token of the final line the lookup fails although the symbol is
present. -/
theorem claim_C10_symbol_on_last_line_not_found (t sym s : Str)
    (pre : List Str) (last : Str)
    (hs : _std_symbol sym = some s)
    (hsplit : splitlinesPy t = pre ++ [last])
    (hp : ∀ d ∈ pre, firstTok? d ≠ some s)
    (hl : firstTok? last = some s) :
    parse_ecp t (some sym) = .error .ecpNotFound := by
  have hidx := findSymIdx_last s pre last hp
  have hlen : (pre ++ [last]).length = pre.length + 1 := by simp
  rcases hne : pre ++ [last] with _ | ⟨x, xs⟩
  · simp at hne
  · rw [hne] at hsplit hidx hlen
    simp [parse_ecp, hs, hsplit, hidx, hlen]

/-- Witness for C10 at a concrete input: `Na` occurs (only) on the final
line, and `parse_ecp` still reports `ECP not found`. -/
theorem claim_C10_witness :
    parse_ecp (str "foo\nNa NELEC 10") (some (str "Na")) = .error .ecpNotFound :=
  claim_C10_symbol_on_last_line_not_found _ _ (str "Na")
    [str "foo"] (str "Na NELEC 10") (by decide) (by decide) (by decide) (by decide)

/-! ### Sorting lemmas for the reorder loops -/

theorem joinFilters_nil {α K : Type} [BEq K] (key : α → K) (bs : List α) :
    joinFilters key [] bs = [] := rfl

theorem joinFilters_cons {α K : Type} [BEq K] (key : α → K) (k : K) (ks : List K)
    (bs : List α) :
    joinFilters key (k :: ks) bs =
      bs.filter (fun b => key b == k) ++ joinFilters key ks bs := by
  simp [joinFilters]

theorem mem_joinFilters {α K : Type} [BEq K] [LawfulBEq K] {key : α → K}
    {ks : List K} {bs : List α} {x : α} (hx : x ∈ joinFilters key ks bs) :
    x ∈ bs ∧ key x ∈ ks := by
  rcases List.mem_flatten.mp hx with ⟨l, hl, hxl⟩
  rcases List.mem_map.mp hl with ⟨k, hk, rfl⟩
  rcases List.mem_filter.mp hxl with ⟨hxb, hkey⟩
  exact ⟨hxb, by rw [beq_iff_eq] at hkey; rw [hkey]; exact hk⟩

theorem pairwise_joinFilters {α K : Type} [BEq K] [LawfulBEq K] (key : α → K)
    {r : K → K → Prop} {ks : List K} (hks : ks.Pairwise r) (bs : List α) :
    (joinFilters key ks bs).Pairwise
      (fun a b => key a = key b ∨ r (key a) (key b)) := by
  apply List.pairwise_flatten.mpr
  refine ⟨?grp, ?btw⟩
  · intro l hl
    rcases List.mem_map.mp hl with ⟨k, _, rfl⟩
    apply List.pairwise_of_forall_mem_list
    intro a ha b hb
    have ha2 := (List.mem_filter.mp ha).2
    have hb2 := (List.mem_filter.mp hb).2
    rw [beq_iff_eq] at ha2 hb2
    exact Or.inl (ha2.trans hb2.symm)
  · rw [List.pairwise_map]
    refine hks.imp ?_
    intro k1 k2 h12 x hx y hy
    have hx2 := (List.mem_filter.mp hx).2
    have hy2 := (List.mem_filter.mp hy).2
    rw [beq_iff_eq] at hx2 hy2
    exact Or.inr (by rw [hx2, hy2]; exact h12)

theorem filter_joinFilters_not_mem {α K : Type} [BEq K] [LawfulBEq K]
    (key : α → K) {ks : List K} (bs : List α) {k : K} (hk : k ∉ ks) :
    (joinFilters key ks bs).filter (fun b => key b == k) = [] := by
  induction ks with
  | nil => rfl
  | cons j js ih =>
    rw [joinFilters_cons, List.filter_append,
      ih (fun h => hk (List.mem_cons_of_mem _ h)), List.append_nil,
      List.filter_filter]
    apply List.filter_eq_nil_iff.mpr
    intro a _
    simp only [Bool.and_eq_true, beq_iff_eq, not_and]
    intro h1 h2
    exact hk (by rw [h1.symm.trans h2]; exact List.mem_cons_self _ _)

theorem filter_joinFilters_mem {α K : Type} [BEq K] [LawfulBEq K]
    (key : α → K) {ks : List K} (bs : List α) {k : K} (hnd : ks.Nodup)
    (hk : k ∈ ks) :
    (joinFilters key ks bs).filter (fun b => key b == k) =
      bs.filter (fun b => key b == k) := by
  induction ks with
  | nil => cases hk
  | cons j js ih =>
    rw [joinFilters_cons, List.filter_append]
    rcases List.mem_cons.mp hk with rfl | hk2
    · have hnj : k ∉ js := (List.nodup_cons.mp hnd).1
      rw [filter_joinFilters_not_mem key bs hnj, List.append_nil,
        List.filter_filter]
      apply List.filter_congr
      intro a _
      cases hb : key a == k <;> simp [hb]
    · have hkj : k ≠ j := by
        rintro rfl
        exact (List.nodup_cons.mp hnd).1 hk2
      rw [ih (List.nodup_cons.mp hnd).2 hk2, List.filter_filter]
      have hnil : bs.filter (fun a => (key a == k) && (key a == j)) = [] := by
        apply List.filter_eq_nil_iff.mpr
        intro a _
        simp only [Bool.and_eq_true, beq_iff_eq, not_and]
        intro h1 h2
        exact absurd (h1.symm.trans h2) hkj
      rw [hnil, List.nil_append]

theorem joinFilters_perm {α K : Type} [BEq K] [LawfulBEq K] (key : α → K)
    (ks : List K) (hnd : ks.Nodup) :
    ∀ (bs : List α), (∀ b ∈ bs, key b ∈ ks) → (joinFilters key ks bs).Perm bs := by
  induction ks with
  | nil =>
    intro bs hcov
    have hbs : bs = [] := List.eq_nil_iff_forall_not_mem.mpr
      (fun a ha => by simpa using hcov a ha)
    rw [hbs]
    exact List.Perm.refl _
  | cons j js ih =>
    intro bs hcov
    rw [joinFilters_cons]
    have hjns : j ∉ js := (List.nodup_cons.mp hnd).1
    have hjs : joinFilters key js bs =
        joinFilters key js (bs.filter (fun b => !(key b == j))) := by
      unfold joinFilters
      congr 1
      apply List.map_congr_left
      intro k hkjs
      have hkj : k ≠ j := by
        rintro rfl
        exact hjns hkjs
      rw [List.filter_filter]
      apply List.filter_congr
      intro a _
      cases hb : key a == k
      · simp
      · rw [beq_iff_eq] at hb
        have : (key a == j) = false := by
          rw [Bool.eq_false_iff]
          rw [Ne, beq_iff_eq, hb]
          exact hkj
        simp [this]
    have hcov2 : ∀ b ∈ bs.filter (fun b => !(key b == j)), key b ∈ js := by
      intro b hb
      rcases List.mem_filter.mp hb with ⟨hbbs, hbkey⟩
      rcases List.mem_cons.mp (hcov b hbbs) with he | hm
      · rw [Bool.not_eq_eq_eq_not, Bool.not_true, Bool.eq_false_iff, Ne,
          beq_iff_eq] at hbkey
        exact absurd he hbkey
      · exact hm
    rw [hjs]
    exact (List.Perm.append_left _
      (ih (List.nodup_cons.mp hnd).2 _ hcov2)).trans
      (List.filter_append_perm _ bs)

/-- Two lists sorted by key with identical key-filters are equal. -/
theorem eq_of_sorted_filters {α K : Type} [BEq K] [LawfulBEq K] [LinearOrder K]
    (key : α → K) :
    ∀ (xs ys : List α), xs.Pairwise (fun a b => key a ≤ key b) →
      ys.Pairwise (fun a b => key a ≤ key b) →
      (∀ k, xs.filter (fun b => key b == k) = ys.filter (fun b => key b == k)) →
      xs = ys := by
  intro xs
  induction xs with
  | nil =>
    intro ys _ _ hf
    cases ys with
    | nil => rfl
    | cons y ys2 =>
      exfalso
      have h0 := hf (key y)
      simp [List.filter_cons] at h0
  | cons x xs2 ih =>
    intro ys hxs hys hf
    cases ys with
    | nil =>
      exfalso
      have h0 := hf (key x)
      simp [List.filter_cons] at h0
    | cons y ys2 =>
      rcases eq_or_ne (key y) (key x) with hxy | hxy
      · have h1 := hf (key x)
        simp [List.filter_cons, hxy] at h1
        obtain ⟨rfl, -⟩ := h1
        congr 1
        apply ih ys2 (List.Pairwise.of_cons hxs) (List.Pairwise.of_cons hys)
        intro k
        have hk := hf k
        by_cases hc : (key x == k) = true
        · simp [List.filter_cons, hc] at hk
          exact hk
        · rw [Bool.not_eq_true] at hc
          simp [List.filter_cons, hc] at hk
          exact hk
      · exfalso
        have hyx' : (key y == key x) = false := by
          rw [beq_eq_false_iff_ne]
          exact hxy
        have h1 := hf (key x)
        simp [List.filter_cons, hyx'] at h1
        have hxmem : x ∈ ys2.filter (fun b => key b == key x) := by
          rw [← h1]
          exact List.mem_cons_self _ _
        have hyx : key y ≤ key x :=
          (List.pairwise_cons.mp hys).1 x (List.mem_filter.mp hxmem).1
        have hxy' : (key x == key y) = false := by
          rw [beq_eq_false_iff_ne]
          exact fun he => hxy he.symm
        have h2 := hf (key y)
        simp [List.filter_cons, hxy'] at h2
        have hymem : y ∈ xs2.filter (fun b => key b == key y) := by
          rw [h2]
          exact List.mem_cons_self _ _
        have hky : key x ≤ key y :=
          (List.pairwise_cons.mp hxs).1 y (List.mem_filter.mp hymem).1
        exact hxy (le_antisymm hyx hky)

/-- A list already sorted by keys drawn from a strictly increasing key list
is fixed by the concatenated-filters reordering. -/
theorem joinFilters_fix {α K : Type} [BEq K] [LawfulBEq K] [LinearOrder K]
    (key : α → K) (ks : List K) (hnd : ks.Nodup) (hsort : ks.Pairwise (· < ·))
    (bs : List α) (hcov : ∀ b ∈ bs, key b ∈ ks)
    (hbs : bs.Pairwise (fun a b => key a ≤ key b)) :
    joinFilters key ks bs = bs := by
  apply eq_of_sorted_filters key
  · exact (pairwise_joinFilters key hsort bs).imp
      (fun h => h.elim (fun he => le_of_eq he) (fun hlt => le_of_lt hlt))
  · exact hbs
  · intro k
    by_cases hk : k ∈ ks
    · exact filter_joinFilters_mem key bs hnd hk
    · rw [filter_joinFilters_not_mem key bs hk]
      symm
      apply List.filter_eq_nil_iff.mpr
      intro a ha
      simp only [beq_iff_eq]
      rintro rfl
      exact hk (hcov a ha)

/-! ### Invariants of the line scans -/

theorem MAPSPDF_lt8 {key : Str} {l : ℕ} (h : MAPSPDF key = some l) : l < 8 := by
  unfold MAPSPDF at h
  split_ifs at h <;> first
    | (injection h with h2; omega)
    | exact absurd h (by simp)

theorem head_dropWhile_false {α : Type} {p : α → Bool} :
    ∀ {s : List α} {c : α} {r : List α}, s.dropWhile p = c :: r → p c = false := by
  intro s
  induction s with
  | nil => intro c r h; exact absurd h (by simp)
  | cons a s2 ih =>
    intro c r h
    by_cases ha : p a = true
    · rw [List.dropWhile_cons_of_pos ha] at h
      exact ih h
    · rw [List.dropWhile_cons_of_neg ha] at h
      injection h with h1 _
      rw [← h1]
      exact Bool.not_eq_true _ |>.mp ha

theorem pyStrip_head_not_space {s : Str} {c : Char} {r : Str}
    (h : pyStrip s = c :: r) : pyIsSpace c = false := by
  have hu : s.dropWhile pyIsSpace =
      (pyStrip s) ++ ((s.dropWhile pyIsSpace).reverse.takeWhile pyIsSpace).reverse := by
    unfold pyStrip
    conv_lhs => rw [← List.reverse_reverse (s.dropWhile pyIsSpace)]
    conv_lhs => rw [← List.takeWhile_append_dropWhile
      (p := pyIsSpace) (l := (s.dropWhile pyIsSpace).reverse)]
    rw [List.reverse_append]
  rw [h] at hu
  exact head_dropWhile_false hu

theorem pySplitAux_ne_nil {acc : Str} (hacc : acc ≠ []) :
    ∀ (s : Str), pySplitAux s acc ≠ [] := by
  intro s
  induction s generalizing acc with
  | nil => simp [pySplitAux, hacc]
  | cons c r ih =>
    by_cases hc : pyIsSpace c = true <;>
      simp [pySplitAux, hc, hacc]
    exact ih (by simp)

theorem pySplit_cons_ne_nil {c : Char} {r : Str} (hc : pyIsSpace c = false) :
    pySplit (c :: r) ≠ [] := by
  have h := pySplitAux_ne_nil (show ([c] : Str) ≠ [] from by simp) r
  show pySplitAux (c :: r) [] ≠ []
  unfold pySplitAux
  rw [hc]
  simpa using h

theorem parseFloats_length : ∀ {ts : List Str} {qs : List ℚ},
    parseFloats ts = some qs → qs.length = ts.length := by
  intro ts
  induction ts with
  | nil => intro qs h; cases h; rfl
  | cons t ts2 ih =>
    intro qs h
    unfold parseFloats at h
    cases hf : parseFloat? t <;> rw [hf] at h
    · exact absurd h (by simp)
    · cases hr : parseFloats ts2 <;> rw [hr] at h
      · exact absurd h (by simp)
      · cases h
        simp [ih hr]

theorem replaceDe_head_not_space {c : Char} (hc : pyIsSpace c = false) :
    pyIsSpace (if c = 'D' then 'e' else c) = false := by
  split
  · decide
  · exact hc

theorem appendLast_inv {shells : List Shell} {row : List ℚ} {out : List Shell}
    (h : appendLast shells row = .ok out) (hs : ∀ sh ∈ shells, ShellInv sh)
    (hrow : row ≠ []) : ∀ sh ∈ out, ShellInv sh := by
  unfold appendLast at h
  rcases hrev : shells.reverse with _ | ⟨p, rest⟩ <;> rw [hrev] at h
  · exact absurd h (by simp)
  · cases h
    intro sh hsh
    have hshells : shells = rest.reverse ++ [p] := by
      rw [← List.reverse_reverse shells, hrev, List.reverse_cons]
    rcases List.mem_append.mp hsh with hm | hm
    · exact hs sh (by rw [hshells]; exact List.mem_append_left _ hm)
    · rw [List.mem_singleton.mp hm]
      have hp : ShellInv p := hs p (by
        rw [hshells]
        exact List.mem_append_right _ (List.mem_singleton_self p))
      refine ⟨hp.1, ?_⟩
      intro r hr
      rcases List.mem_append.mp hr with h1 | h1
      · exact hp.2 r h1
      · rw [List.mem_singleton.mp h1]
        exact hrow

theorem appendSP_inv {shells : List Shell} {rowS rowP : List ℚ} {out : List Shell}
    (h : appendSP shells rowS rowP = .ok out) (hs : ∀ sh ∈ shells, ShellInv sh)
    (hrS : rowS ≠ []) (hrP : rowP ≠ []) : ∀ sh ∈ out, ShellInv sh := by
  unfold appendSP at h
  rcases hrev : shells.reverse with _ | ⟨p, rest0⟩ <;> rw [hrev] at h
  · exact absurd h (by simp)
  · rcases rest0 with _ | ⟨q, rest⟩
    · exact absurd h (by simp)
    · cases h
      intro sh hsh
      have hshells : shells = rest.reverse ++ [q, p] := by
        rw [← List.reverse_reverse shells, hrev, List.reverse_cons,
          List.reverse_cons, List.append_assoc]
        rfl
      have hq : ShellInv q := hs q (by rw [hshells]; simp)
      have hp : ShellInv p := hs p (by rw [hshells]; simp)
      rcases List.mem_append.mp hsh with hm | hm
      · exact hs sh (by rw [hshells]; exact List.mem_append_left _ hm)
      · rcases List.mem_cons.mp hm with he | hm2
        · rw [he]
          refine ⟨hq.1, ?_⟩
          intro r hr
          rcases List.mem_append.mp hr with h1 | h1
          · exact hq.2 r h1
          · rw [List.mem_singleton.mp h1]
            exact hrS
        · rw [List.mem_singleton.mp hm2]
          refine ⟨hp.1, ?_⟩
          intro r hr
          rcases List.mem_append.mp hr with h1 | h1
          · exact hp.2 r h1
          · rw [List.mem_singleton.mp h1]
            exact hrP

theorem parseLine_inv {st : PState} {line : Str} {st2 : PState}
    (h : parseLine st line = .ok st2) (hst : ∀ sh ∈ st.shells, ShellInv sh) :
    ∀ sh ∈ st2.shells, ShellInv sh := by
  unfold parseLine at h
  rcases hstrip : pyStrip line with _ | ⟨c, rest⟩ <;> rw [hstrip] at h <;>
    simp only [] at h
  · cases h
    exact hst
  · by_cases hhash : c = '#'
    · rw [if_pos hhash] at h
      cases h
      exact hst
    · rw [if_neg hhash] at h
      by_cases halpha : pyIsAlpha c = true
      · rw [if_pos halpha] at h
        cases hkey : (pySplit (c :: rest))[1]? <;> rw [hkey] at h
        · exact absurd h (by simp)
        · rename_i key
          simp only [] at h
          by_cases hsp : key = str "SP"
          · rw [if_pos hsp] at h
            cases h
            intro sh hsh
            rcases List.mem_append.mp hsh with hm | hm
            · exact hst sh hm
            · rcases List.mem_cons.mp hm with he | hm2
              · rw [he]
                exact ⟨by decide, by intro r hr; cases hr⟩
              · rw [List.mem_singleton.mp hm2]
                exact ⟨by decide, by intro r hr; cases hr⟩
          · rw [if_neg hsp] at h
            cases hmap : MAPSPDF key <;> rw [hmap] at h
            · exact absurd h (by simp)
            · rename_i l
              simp only [] at h
              cases h
              intro sh hsh
              rcases List.mem_append.mp hsh with hm | hm
              · exact hst sh hm
              · rw [List.mem_singleton.mp hm]
                exact ⟨MAPSPDF_lt8 hmap, by intro r hr; cases hr⟩
      · rw [if_neg halpha] at h
        cases hfl : parseFloats (pySplit (replaceDe (c :: rest))) <;> rw [hfl] at h
        · exact absurd h (by simp)
        · rename_i nums
          simp only [] at h
          cases hk : st.key <;> rw [hk] at h
          · exact absurd h (by simp)
          · rename_i key
            simp only [] at h
            by_cases hsp : key = str "SP"
            · rw [if_pos hsp] at h
              rcases nums with _ | ⟨e, nums1⟩
              · exact absurd h (by simp)
              rcases nums1 with _ | ⟨c1, nums2⟩
              · exact absurd h (by simp)
              rcases nums2 with _ | ⟨c2, nums3⟩
              · exact absurd h (by simp)
              simp only [] at h
              cases hap : appendSP st.shells [e, c1] [e, c2] <;> rw [hap] at h
              · exact absurd h (by simp)
              · rename_i out
                simp only [] at h
                cases h
                exact appendSP_inv hap hst (by simp) (by simp)
            · rw [if_neg hsp] at h
              cases hap : appendLast st.shells nums <;> rw [hap] at h
              · exact absurd h (by simp)
              · rename_i out
                simp only [] at h
                cases h
                have hcns : pyIsSpace c = false := pyStrip_head_not_space hstrip
                have hnums : nums ≠ [] := by
                  intro hne
                  have hlen := parseFloats_length hfl
                  rw [hne] at hlen
                  have hres : pySplit (replaceDe (c :: rest)) = [] :=
                    List.length_eq_zero.mp hlen.symm
                  have hrd : replaceDe (c :: rest) =
                      (if c = 'D' then 'e' else c) :: replaceDe rest := rfl
                  rw [hrd] at hres
                  exact pySplit_cons_ne_nil (replaceDe_head_not_space hcns) hres
                exact appendLast_inv hap hst hnums

theorem processLines_inv : ∀ {raw : List Str} {st st2 : PState},
    processLines raw st = .ok st2 → (∀ sh ∈ st.shells, ShellInv sh) →
    ∀ sh ∈ st2.shells, ShellInv sh := by
  intro raw
  induction raw with
  | nil =>
    intro st st2 h hst
    cases h
    exact hst
  | cons l ls ih =>
    intro st st2 h hst
    unfold processLines at h
    cases hstep : parseLine st l <;> rw [hstep] at h
    · exact absurd h (by simp)
    · exact ih h (parseLine_inv hstep hst)

/-- Claim C4: on every raw basis text the line scan accepts, `_parse` returns
the scanned shells reordered ascending by the `l` at position 0, stable
within each `l` (`filter`-preserving), and as a permutation (no shell
dropped). -/
theorem claim_C4_sorted_stable_permutation (raw : List Str) (st : PState)
    (h : processLines raw ⟨[], none⟩ = .ok st) :
    _parse raw = .ok (bsort8 st.shells) ∧ sortedByL (bsort8 st.shells) ∧
      stableByL (bsort8 st.shells) st.shells ∧
      (bsort8 st.shells).Perm st.shells := by
  have hinv : ∀ sh ∈ st.shells, ShellInv sh :=
    processLines_inv h (by intro sh hsh; cases hsh)
  have hcov : ∀ sh ∈ st.shells, sh.l ∈ List.range 8 :=
    fun sh hsh => List.mem_range.mpr (hinv sh hsh).1
  have hjf : bsort8 st.shells = joinFilters Shell.l (List.range 8) st.shells := rfl
  refine ⟨?_, ?_, ?_, ?_⟩
  · unfold _parse
    rw [h]
  · rw [sortedByL, hjf]
    exact (pairwise_joinFilters Shell.l (List.pairwise_lt_range 8) st.shells).imp
      (fun hab => hab.elim le_of_eq le_of_lt)
  · intro k
    rw [hjf]
    by_cases hk : k ∈ List.range 8
    · exact filter_joinFilters_mem Shell.l st.shells (List.nodup_range 8) hk
    · rw [filter_joinFilters_not_mem Shell.l st.shells hk]
      symm
      apply List.filter_eq_nil_iff.mpr
      intro sh hsh
      simp only [beq_iff_eq]
      rintro rfl
      exact hk (hcov sh hsh)
  · rw [hjf]
    exact joinFilters_perm Shell.l (List.range 8) (List.nodup_range 8) st.shells hcov

/-- Witness for C4 at a concrete input: a `P` shell followed by an `S` shell
comes out reordered `S` before `P`, stably and without loss. -/
theorem claim_C4_witness :
    _parse [str "NA P", str "1.0 0.5", str "NA S", str "2.0 0.3"] =
        .ok (bsort8 [⟨1, [[mkRat 1 1, mkRat 1 2]]⟩, ⟨0, [[mkRat 2 1, mkRat 3 10]]⟩]) ∧
      sortedByL (bsort8 [⟨1, [[mkRat 1 1, mkRat 1 2]]⟩, ⟨0, [[mkRat 2 1, mkRat 3 10]]⟩]) ∧
      stableByL (bsort8 [⟨1, [[mkRat 1 1, mkRat 1 2]]⟩, ⟨0, [[mkRat 2 1, mkRat 3 10]]⟩])
        [⟨1, [[mkRat 1 1, mkRat 1 2]]⟩, ⟨0, [[mkRat 2 1, mkRat 3 10]]⟩] ∧
      (bsort8 [⟨1, [[mkRat 1 1, mkRat 1 2]]⟩, ⟨0, [[mkRat 2 1, mkRat 3 10]]⟩]).Perm
        [⟨1, [[mkRat 1 1, mkRat 1 2]]⟩, ⟨0, [[mkRat 2 1, mkRat 3 10]]⟩] :=
  claim_C4_sorted_stable_permutation
    [str "NA P", str "1.0 0.5", str "NA S", str "2.0 0.3"]
    ⟨[⟨1, [[mkRat 1 1, mkRat 1 2]]⟩, ⟨0, [[mkRat 2 1, mkRat 3 10]]⟩], some ['S']⟩
    (by decide)

theorem ecpLine_inv {st : EState} {line : Str} {st2 : EState}
    (h : ecpLine st line = .ok st2) (hst : ∀ b ∈ st.blocks, EcpInv b) :
    ∀ b ∈ st2.blocks, EcpInv b := by
  unfold ecpLine at h
  rcases hstrip : pyStrip line with _ | ⟨c, rest⟩ <;> rw [hstrip] at h <;>
    simp only [] at h
  · cases h
    exact hst
  · by_cases hhash : c = '#'
    · rw [if_pos hhash] at h
      cases h
      exact hst
    · rw [if_neg hhash] at h
      by_cases halpha : pyIsAlpha c = true
      · rw [if_pos halpha] at h
        cases hkey : (pySplit (c :: rest))[1]? <;> rw [hkey] at h
        · exact absurd h (by simp)
        · rename_i key
          simp only [] at h
          by_cases hne : key = str "NELEC"
          · rw [if_pos hne] at h
            cases ht : (pySplit (c :: rest))[2]? <;> rw [ht] at h
            · exact absurd h (by simp)
            · rename_i t
              simp only [] at h
              cases hint : parseInt? t <;> rw [hint] at h
              · exact absurd h (by simp)
              · rename_i n
                simp only [] at h
                cases h
                exact hst
          · rw [if_neg hne] at h
            by_cases hul : key = str "UL"
            · rw [if_pos hul] at h
              cases h
              intro b hb
              rcases List.mem_append.mp hb with hm | hm
              · exact hst b hm
              · rw [List.mem_singleton.mp hm]
                show (-1 : ℤ) ∈ lRange
                decide
            · rw [if_neg hul] at h
              cases hmap : MAPSPDF key <;> rw [hmap] at h
              · exact absurd h (by simp)
              · rename_i l
                simp only [] at h
                cases h
                intro b hb
                rcases List.mem_append.mp hb with hm | hm
                · exact hst b hm
                · rw [List.mem_singleton.mp hm]
                  have hl8 := MAPSPDF_lt8 hmap
                  show ((l : ℤ)) ∈ lRange
                  interval_cases l <;> decide
      · rw [if_neg halpha] at h
        cases hts : pySplit (replaceDe (c :: rest)) <;> rw [hts] at h
        · exact absurd h (by simp)
        · rename_i t0 ts
          simp only [] at h
          cases hint : parseInt? t0 <;> rw [hint] at h
          · exact absurd h (by simp)
          · rename_i l
            simp only [] at h
            cases hrev : st.blocks.reverse <;> rw [hrev] at h
            · exact absurd h (by simp)
            · rename_i hd prev
              rcases hd with ⟨bl, ba⟩
              simp only [] at h
              by_cases hj : 0 ≤ pyIdx ba.length l ∧ pyIdx ba.length l < (ba.length : ℤ)
              · rw [if_pos hj] at h
                cases hfl : parseFloats ts <;> rw [hfl] at h
                · exact absurd h (by simp)
                · rename_i row
                  simp only [] at h
                  cases h
                  intro b hb
                  have hblocks : st.blocks = prev.reverse ++ [(bl, ba)] := by
                    rw [← List.reverse_reverse st.blocks, hrev, List.reverse_cons]
                  rcases List.mem_append.mp hb with hm | hm
                  · exact hst b (by rw [hblocks]; exact List.mem_append_left _ hm)
                  · rw [List.mem_singleton.mp hm]
                    exact hst (bl, ba) (by rw [hblocks]; simp)
              · rw [if_neg hj] at h
                exact absurd h (by simp)

theorem processEcpLines_inv : ∀ {raw : List Str} {st st2 : EState},
    processEcpLines raw st = .ok st2 → (∀ b ∈ st.blocks, EcpInv b) →
    ∀ b ∈ st2.blocks, EcpInv b := by
  intro raw
  induction raw with
  | nil =>
    intro st st2 h hst
    cases h
    exact hst
  | cons l ls ih =>
    intro st st2 h hst
    unfold processEcpLines at h
    cases hstep : ecpLine st l <;> rw [hstep] at h
    · exact absurd h (by simp)
    · exact ih h (ecpLine_inv hstep hst)

/-- Claim C6: on every raw ECP text the line scan accepts (with a `NELEC`
count seen), `_parse_ecp` returns the scanned blocks reordered with the
`l = -1` (UL) blocks first and the rest ascending in `l`, stable within each
`l` and as a permutation. -/
theorem claim_C6_ecp_block_ordering (raw : List Str) (st : EState) (n : ℤ)
    (h : processEcpLines raw ⟨[], none⟩ = .ok st) (hn : st.nelec = some n) :
    _parse_ecp raw = .ok (some (n, ecpSortBlocks st.blocks)) ∧
      sortedEcp (ecpSortBlocks st.blocks) ∧
      stableEcp (ecpSortBlocks st.blocks) st.blocks ∧
      (ecpSortBlocks st.blocks).Perm st.blocks := by
  have hinv : ∀ b ∈ st.blocks, EcpInv b :=
    processEcpLines_inv h (by intro b hb; cases hb)
  have hjf : ecpSortBlocks st.blocks = joinFilters Prod.fst lRange st.blocks := rfl
  refine ⟨?_, ?_, ?_, ?_⟩
  · unfold _parse_ecp
    rw [h]
    simp only []
    rw [hn]
  · rw [sortedEcp, hjf]
    exact (pairwise_joinFilters Prod.fst
      (by decide : lRange.Pairwise (· < ·)) st.blocks).imp
      (fun hab => hab.elim le_of_eq le_of_lt)
  · intro k
    rw [hjf]
    by_cases hk : k ∈ lRange
    · exact filter_joinFilters_mem Prod.fst st.blocks (by decide) hk
    · rw [filter_joinFilters_not_mem Prod.fst st.blocks hk]
      symm
      apply List.filter_eq_nil_iff.mpr
      intro b hb
      simp only [beq_iff_eq]
      rintro rfl
      exact hk (hinv b hb)
  · rw [hjf]
    exact joinFilters_perm Prod.fst lRange (by decide) st.blocks hinv

/-- Witness for C6 at a concrete input: an `S` block followed by a `UL`
block comes out with the `l = -1` block first. -/
theorem claim_C6_witness :
    _parse_ecp [str "NA NELEC 10", str "NA S", str "0 1.0 5.0", str "NA UL",
        str "1 0.5 10.0"] =
      .ok (some (10, ecpSortBlocks [(0, [[[mkRat 1 1, mkRat 5 1]], [], [], []]),
        (-1, [[], [[mkRat 1 2, mkRat 10 1]], [], []])])) ∧
      sortedEcp (ecpSortBlocks [(0, [[[mkRat 1 1, mkRat 5 1]], [], [], []]),
        (-1, [[], [[mkRat 1 2, mkRat 10 1]], [], []])]) ∧
      stableEcp (ecpSortBlocks [(0, [[[mkRat 1 1, mkRat 5 1]], [], [], []]),
        (-1, [[], [[mkRat 1 2, mkRat 10 1]], [], []])])
        [(0, [[[mkRat 1 1, mkRat 5 1]], [], [], []]),
          (-1, [[], [[mkRat 1 2, mkRat 10 1]], [], []])] ∧
      (ecpSortBlocks [(0, [[[mkRat 1 1, mkRat 5 1]], [], [], []]),
        (-1, [[], [[mkRat 1 2, mkRat 10 1]], [], []])]).Perm
        [(0, [[[mkRat 1 1, mkRat 5 1]], [], [], []]),
          (-1, [[], [[mkRat 1 2, mkRat 10 1]], [], []])] :=
  claim_C6_ecp_block_ordering
    [str "NA NELEC 10", str "NA S", str "0 1.0 5.0", str "NA UL", str "1 0.5 10.0"]
    ⟨[(0, [[[mkRat 1 1, mkRat 5 1]], [], [], []]),
      (-1, [[], [[mkRat 1 2, mkRat 10 1]], [], []])], some 10⟩ 10
    (by decide) (by decide)

/-! ### The `SP` compound-shell expansion (C5) -/

theorem appendSP_pair (A : List Shell) (sa sb : Shell) (r1 r2 : List ℚ) :
    appendSP (A ++ [sa, sb]) r1 r2 =
      .ok (A ++ [{ sa with rows := sa.rows ++ [r1] },
        { sb with rows := sb.rows ++ [r2] }]) := by
  unfold appendSP
  rw [show (A ++ [sa, sb]).reverse = sb :: sa :: A.reverse by simp]
  simp

theorem parseLine_sp_header {hdr : Str} (hh : isSPHeaderB hdr = true)
    (st : PState) :
    parseLine st hdr =
      .ok ⟨st.shells ++ [⟨0, []⟩, ⟨1, []⟩], some (str "SP")⟩ := by
  unfold isSPHeaderB at hh
  rcases hstrip : pyStrip hdr with _ | ⟨c, rest⟩ <;> rw [hstrip] at hh
  · exact absurd hh (by simp)
  · simp only [Bool.and_eq_true, Bool.not_eq_eq_eq_not, Bool.not_true,
      decide_eq_false_iff_not, decide_eq_true_eq] at hh
    obtain ⟨⟨hhash, halpha⟩, hkey⟩ := hh
    unfold parseLine
    rw [hstrip]
    simp only []
    rw [if_neg hhash, if_pos halpha, hkey]
    simp only []
    rw [if_pos trivial]

theorem parseLine_sp_data {d : Str} {e c1 c2 : ℚ} {tl : List ℚ}
    (hd : isDataLineB d = true)
    (hf : dataFloats d = some (e :: c1 :: c2 :: tl))
    (A : List Shell) (sa sb : Shell) :
    parseLine ⟨A ++ [sa, sb], some (str "SP")⟩ d =
      .ok ⟨A ++ [{ sa with rows := sa.rows ++ [[e, c1]] },
        { sb with rows := sb.rows ++ [[e, c2]] }], some (str "SP")⟩ := by
  unfold isDataLineB at hd
  rcases hstrip : pyStrip d with _ | ⟨c, rest⟩ <;> rw [hstrip] at hd
  · exact absurd hd (by simp)
  · simp only [Bool.and_eq_true, Bool.not_eq_eq_eq_not, Bool.not_true,
      decide_eq_false_iff_not] at hd
    obtain ⟨hhash, halpha⟩ := hd
    unfold dataFloats at hf
    rw [hstrip] at hf
    unfold parseLine
    rw [hstrip]
    simp only []
    rw [if_neg hhash, if_neg (by rw [halpha]; simp), hf]
    simp only []
    rw [if_pos trivial, appendSP_pair]

theorem processLines_sp_loop :
    ∀ (ds : List Str) (rows : List (ℚ × ℚ × ℚ × List ℚ)),
      spRowsB ds rows = true →
      ∀ (A : List Shell) (sa sb : Shell),
      processLines ds ⟨A ++ [sa, sb], some (str "SP")⟩ =
        .ok ⟨A ++ [{ sa with rows := sa.rows ++ rows.map (fun x => [x.1, x.2.1]) },
          { sb with rows := sb.rows ++ rows.map (fun x => [x.1, x.2.2.1]) }],
          some (str "SP")⟩ := by
  intro ds
  induction ds with
  | nil =>
    intro rows hr A sa sb
    rcases rows with _ | ⟨x, xs⟩
    · simp [processLines]
    · exact absurd hr (by simp [spRowsB])
  | cons d ds2 ih =>
    intro rows hr A sa sb
    rcases rows with _ | ⟨x, xs⟩
    · exact absurd hr (by simp [spRowsB])
    · unfold spRowsB at hr
      simp only [Bool.and_eq_true, decide_eq_true_eq] at hr
      obtain ⟨⟨hd, hf⟩, hrest⟩ := hr
      unfold processLines
      rw [parseLine_sp_data hd hf A sa sb]
      simp only []
      rw [ih xs hrest A _ _]
      simp

/-- Claim C5: a header line whose shell-type token is `SP` expands into
exactly two shells, `l = 0` then `l = 1`; every following data line carrying
at least three numbers contributes `[exponent, second-number]` to the `l = 0`
shell and `[exponent, third-number]` to the `l = 1` shell, so the two
coefficient columns always have the same row count. -/
theorem claim_C5_sp_two_shells (hdr : Str) (ds : List Str)
    (rows : List (ℚ × ℚ × ℚ × List ℚ)) (s0 : List Shell) (k0 : Option Str)
    (hh : isSPHeaderB hdr = true) (hr : spRowsB ds rows = true) :
    processLines (hdr :: ds) ⟨s0, k0⟩ =
      .ok ⟨s0 ++ [⟨0, rows.map (fun x => [x.1, x.2.1])⟩,
        ⟨1, rows.map (fun x => [x.1, x.2.2.1])⟩], some (str "SP")⟩ ∧
      (rows.map (fun x => [x.1, x.2.1])).length =
        (rows.map (fun x => [x.1, x.2.2.1])).length := by
  constructor
  · unfold processLines
    rw [parseLine_sp_header hh ⟨s0, k0⟩]
    have := processLines_sp_loop ds rows hr s0 ⟨0, []⟩ ⟨1, []⟩
    simpa using this
  · simp

/-- Witness for C5 at a concrete input: `NA SP` with one data row
`1.0 0.5 0.3` gives an `l = 0` shell `[[1.0, 0.5]]` and an `l = 1` shell
`[[1.0, 0.3]]` of equal row count. -/
theorem claim_C5_witness :
    processLines [str "NA SP", str "1.0 0.5 0.3"] ⟨[], none⟩ =
      .ok ⟨[⟨0, [[mkRat 1 1, mkRat 1 2]]⟩, ⟨1, [[mkRat 1 1, mkRat 3 10]]⟩],
        some (str "SP")⟩ ∧
      ([[mkRat 1 1, mkRat 1 2]] : List (List ℚ)).length =
        ([[mkRat 1 1, mkRat 3 10]] : List (List ℚ)).length := by
  have h := claim_C5_sp_two_shells (str "NA SP") [str "1.0 0.5 0.3"]
    [(mkRat 1 1, mkRat 1 2, mkRat 3 10, [])] [] none (by decide) (by decide)
  exact ⟨h.1, rfl⟩

/-! ### Blank lines in the ECP segment scan (C9) -/

/-- Claim C9 as stated is false: here a blank line occurs between the
element's first matching line (the first line) and the end of the text, yet
`parse_ecp` succeeds, because the scan breaks at the `Mg` line before ever
indexing the blank line. -/
theorem claim_C9_counterexample :
    parse_ecp (str "Na NELEC 10\nNa UL\n1 0.5 10.0\nMg S\n\n") (some (str "Na")) =
      .ok (some (10, [(-1, [[], [[mkRat 1 2, mkRat 10 1]], [], []])])) := by
  decide

theorem findSymIdx_first_match (sym : Str) (pre : List Str) (m : Str)
    (rest : List Str) (hp : ∀ d ∈ pre, firstTok? d ≠ some sym)
    (hm : firstTok? m = some sym) :
    findSymIdx sym (pre ++ m :: rest) = pre.length := by
  induction pre with
  | nil => simp [findSymIdx, hm]
  | cons d ds ih =>
    have hd : firstTok? d ≠ some sym := hp d (List.mem_cons_self d ds)
    rcases hds : ds ++ m :: rest with _ | ⟨x, xs⟩
    · simp at hds
    · have := ih (fun e he => hp e (List.mem_cons_of_mem d he))
      rw [hds] at this
      simp [findSymIdx, hd, hds, this]

theorem segScan_blank (symbU : Str) :
    ∀ (ks : List Str), (∀ k ∈ ks, segKeepB symbU k = true) →
    ∀ (b : Str), pyStrip b = [] →
    ∀ (rest : List Str), segScan symbU (ks ++ b :: rest) = .error .indexError := by
  intro ks
  induction ks with
  | nil =>
    intro _ b hb rest
    show segScan symbU (b :: rest) = .error .indexError
    unfold segScan
    rw [hb]
    rfl
  | cons k ks2 ih =>
    intro hks b hb rest
    have hk := hks k (List.mem_cons_self k ks2)
    unfold segKeepB at hk
    rcases hup : pyUpper (pyStrip k) with _ | ⟨c, r⟩ <;> rw [hup] at hk
    · exact absurd hk (by simp)
    · simp only [] at hk
      have hk2 : ¬(pyIsAlpha c = true ∧ firstTok? (c :: r) ≠ some symbU) := by
        rintro ⟨h1, h2⟩
        rw [h1] at hk
        simp at hk
        exact h2 hk
      show segScan symbU (k :: (ks2 ++ b :: rest)) = .error .indexError
      unfold segScan
      rw [hup]
      simp only []
      rw [if_neg hk2, ih (fun e he => hks e (List.mem_cons_of_mem k he)) b hb rest]

/-- Claim C9 amended: the blank line triggers the `IndexError` only when it
comes before the scan terminates, i.e. when every line between the first
matching line and the blank line is kept by the scan (nonblank and not an
alphabetic line with a different first token).  Then `parse_ecp` fails with
`IndexError` instead of skipping the blank line. -/
theorem claim_C9_blank_line_index_error (t sym s : Str) (pre : List Str)
    (m : Str) (mid : List Str) (b : Str) (post : List Str)
    (hs : _std_symbol sym = some s)
    (hsplit : splitlinesPy t = pre ++ m :: (mid ++ b :: post))
    (hp : ∀ d ∈ pre, firstTok? d ≠ some s)
    (hm : firstTok? m = some s)
    (hkm : segKeepB (pyUpper s) m = true)
    (hmid : ∀ d ∈ mid, segKeepB (pyUpper s) d = true)
    (hb : pyStrip b = []) :
    parse_ecp t (some sym) = .error .indexError := by
  have hidx := findSymIdx_first_match s pre m (mid ++ b :: post) hp hm
  have hlen : pre.length + 1 ≠ (pre ++ m :: (mid ++ b :: post)).length := by
    simp
  have hdrop : (pre ++ m :: (mid ++ b :: post)).drop pre.length =
      m :: (mid ++ b :: post) := List.drop_left pre (m :: (mid ++ b :: post))
  have hkeep : ∀ k ∈ (m :: mid), segKeepB (pyUpper s) k = true := by
    intro k hk
    rcases List.mem_cons.mp hk with rfl | hk2
    · exact hkm
    · exact hmid k hk2
  have hscan : segScan (pyUpper s) (m :: (mid ++ b :: post)) =
      .error .indexError := by
    have h2 := segScan_blank (pyUpper s) (m :: mid) hkeep b hb post
    simpa using h2
  rcases hne : pre ++ m :: (mid ++ b :: post) with _ | ⟨x, xs⟩
  · simp at hne
  · rw [hne] at hsplit hidx hlen hdrop
    unfold parse_ecp
    simp only []
    rw [hs]
    simp only []
    rw [hsplit]
    simp only []
    rw [hidx, if_neg hlen, hdrop, hscan]

/-- Witness for the amended C9 at a concrete input: a blank line directly
after the matching `Na` line makes `parse_ecp` raise `IndexError`. -/
theorem claim_C9_witness :
    parse_ecp (str "Na NELEC 10\n\nNa UL") (some (str "Na")) =
      .error .indexError :=
  claim_C9_blank_line_index_error (str "Na NELEC 10\n\nNa UL") (str "Na")
    (str "Na") [] (str "Na NELEC 10") [] [] [str "Na UL"]
    (by decide) (by decide) (by decide) (by decide) (by decide) (by decide)
    (by decide)

/-! ### Character facts -/

theorem toNat_ofNat_valid {n : ℕ} (h : n < 55296) : (Char.ofNat n).toNat = n := by
  unfold Char.ofNat Char.ofNatAux
  rw [dif_pos (Or.inl h)]
  simp [Char.toNat, UInt32.toNat]

theorem pyUpperChar_toNat (c : Char) :
    (pyUpperChar c).toNat =
      if 97 ≤ c.toNat ∧ c.toNat ≤ 122 then c.toNat - 32 else c.toNat := by
  unfold pyUpperChar
  by_cases h : 97 ≤ c.toNat ∧ c.toNat ≤ 122
  · rw [if_pos h, if_pos h]
    exact toNat_ofNat_valid (by omega)
  · rw [if_neg h, if_neg h]

theorem pyLowerChar_toNat (c : Char) :
    (pyLowerChar c).toNat =
      if 65 ≤ c.toNat ∧ c.toNat ≤ 90 then c.toNat + 32 else c.toNat := by
  unfold pyLowerChar
  by_cases h : 65 ≤ c.toNat ∧ c.toNat ≤ 90
  · rw [if_pos h, if_pos h]
    exact toNat_ofNat_valid (by omega)
  · rw [if_neg h, if_neg h]

theorem upperChar_id_of_lt {c : Char} (h : c.toNat < 97) : pyUpperChar c = c := by
  unfold pyUpperChar
  rw [if_neg (by omega)]

theorem pyIsSpace_upperChar (c : Char) :
    pyIsSpace (pyUpperChar c) = pyIsSpace c := by
  have ht := pyUpperChar_toNat c
  by_cases h : 97 ≤ c.toNat ∧ c.toNat ≤ 122
  · rw [if_pos h] at ht
    have h1 : pyIsSpace (pyUpperChar c) = false := by
      simp only [pyIsSpace, decide_eq_false_iff_not]
      omega
    have h2 : pyIsSpace c = false := by
      simp only [pyIsSpace, decide_eq_false_iff_not]
      omega
    rw [h1, h2]
  · unfold pyUpperChar
    rw [if_neg h]

theorem alpha_not_space {c : Char} (h : pyIsAlpha c = true) :
    pyIsSpace c = false := by
  simp only [pyIsAlpha, decide_eq_true_eq] at h
  simp only [pyIsSpace, decide_eq_false_iff_not]
  omega

theorem alpha_ne_hash {c : Char} (h : pyIsAlpha c = true) : c ≠ '#' :=
  fun he => absurd (he ▸ h) (by decide)

theorem alpha_ne_nl {c : Char} (h : pyIsAlpha c = true) : c ≠ '\n' :=
  fun he => absurd (he ▸ h) (by decide)

theorem alpha_upperChar {c : Char} (h : pyIsAlpha c = true) :
    pyIsAlpha (pyUpperChar c) = true := by
  simp only [pyIsAlpha, decide_eq_true_eq] at h ⊢
  rw [pyUpperChar_toNat]
  by_cases hc : 97 ≤ c.toNat ∧ c.toNat ≤ 122
  · rw [if_pos hc]
    omega
  · rw [if_neg hc]
    omega

theorem alpha_lowerChar {c : Char} (h : pyIsAlpha c = true) :
    pyIsAlpha (pyLowerChar c) = true := by
  simp only [pyIsAlpha, decide_eq_true_eq] at h ⊢
  rw [pyLowerChar_toNat]
  by_cases hc : 65 ≤ c.toNat ∧ c.toNat ≤ 90
  · rw [if_pos hc]
    omega
  · rw [if_neg hc]
    omega

theorem digit_ne {c : Char} (h : pyIsDigit c = true) :
    pyIsSpace c = false ∧ pyIsAlpha c = false ∧ c ≠ '#' ∧ c ≠ '\n' ∧
      c ≠ 'D' ∧ c ≠ '-' ∧ c ≠ '+' ∧ pyUpperChar c = c := by
  simp only [pyIsDigit, decide_eq_true_eq] at h
  refine ⟨?_, ?_, ?_, ?_, ?_, ?_, ?_, ?_⟩
  · simp only [pyIsSpace, decide_eq_false_iff_not]
    omega
  · simp only [pyIsAlpha, decide_eq_false_iff_not]
    omega
  · intro he
    rw [he] at h
    exact absurd h (by decide)
  · intro he
    rw [he] at h
    exact absurd h (by decide)
  · intro he
    rw [he] at h
    exact absurd h (by decide)
  · intro he
    rw [he] at h
    exact absurd h (by decide)
  · intro he
    rw [he] at h
    exact absurd h (by decide)
  · exact upperChar_id_of_lt (by omega)

theorem numChar_ne {c : Char} (h : numCharB c = true) :
    pyIsSpace c = false ∧ pyIsAlpha c = false ∧ c ≠ '#' ∧ c ≠ '\n' ∧
      c ≠ 'D' ∧ pyUpperChar c = c := by
  simp only [numCharB, Bool.or_eq_true, decide_eq_true_eq] at h
  rcases h with (hd | rfl) | rfl
  · have := digit_ne hd
    exact ⟨this.1, this.2.1, this.2.2.1, this.2.2.2.1, this.2.2.2.2.1, this.2.2.2.2.2.2.2⟩
  · exact ⟨by decide, by decide, by decide, by decide, by decide, by decide⟩
  · exact ⟨by decide, by decide, by decide, by decide, by decide, by decide⟩

theorem digit_numChar {c : Char} (h : pyIsDigit c = true) : numCharB c = true := by
  simp only [numCharB, Bool.or_eq_true]
  exact Or.inl (Or.inl h)

/-! ### take/drop over classified strings -/

theorem takeWhile_all {p : Char → Bool} :
    ∀ {l : Str}, (∀ c ∈ l, p c = true) → l.takeWhile p = l := by
  intro l
  induction l with
  | nil => intro _; rfl
  | cons c r ih =>
    intro h
    rw [List.takeWhile_cons_of_pos (h c (List.mem_cons_self _ _)),
      ih (fun d hd => h d (List.mem_cons_of_mem _ hd))]

theorem dropWhile_all {p : Char → Bool} :
    ∀ {l : Str}, (∀ c ∈ l, p c = true) → l.dropWhile p = [] := by
  intro l
  induction l with
  | nil => intro _; rfl
  | cons c r ih =>
    intro h
    rw [List.dropWhile_cons_of_pos (h c (List.mem_cons_self _ _))]
    exact ih (fun d hd => h d (List.mem_cons_of_mem _ hd))

theorem takeWhile_append_stop {p : Char → Bool} {a : Str} {b : Char} {r : Str}
    (ha : ∀ c ∈ a, p c = true) (hb : p b = false) :
    (a ++ b :: r).takeWhile p = a := by
  induction a with
  | nil => exact List.takeWhile_cons_of_neg (by rw [hb]; exact Bool.false_ne_true)
  | cons x xs ih =>
    rw [List.cons_append, List.takeWhile_cons_of_pos (ha x (List.mem_cons_self _ _)),
      ih (fun d hd => ha d (List.mem_cons_of_mem _ hd))]

theorem dropWhile_append_stop {p : Char → Bool} {a : Str} {b : Char} {r : Str}
    (ha : ∀ c ∈ a, p c = true) (hb : p b = false) :
    (a ++ b :: r).dropWhile p = b :: r := by
  induction a with
  | nil => exact List.dropWhile_cons_of_neg (by rw [hb]; exact Bool.false_ne_true)
  | cons x xs ih =>
    rw [List.cons_append, List.dropWhile_cons_of_pos (ha x (List.mem_cons_self _ _))]
    exact ih (fun d hd => ha d (List.mem_cons_of_mem _ hd))

/-! ### Digit strings -/

theorem dval_digitChar {d : ℕ} (h : d < 10) : dval (digitChar d) = d := by
  unfold dval digitChar
  rw [toNat_ofNat_valid (by omega)]
  omega

theorem pyIsDigit_digitChar {d : ℕ} (h : d < 10) : pyIsDigit (digitChar d) = true := by
  simp only [pyIsDigit, digitChar, decide_eq_true_eq]
  rw [toNat_ofNat_valid (by omega)]
  omega

theorem natStrAux_digits : ∀ (f n : ℕ), ∀ c ∈ natStrAux f n, pyIsDigit c = true := by
  intro f
  induction f with
  | zero => intro n c hc; cases hc
  | succ f ih =>
    intro n c hc
    rcases n with _ | n2
    · cases hc
    · unfold natStrAux at hc
      rcases List.mem_append.mp hc with h1 | h1
      · exact ih _ c h1
      · rw [List.mem_singleton.mp h1]
        exact pyIsDigit_digitChar (Nat.mod_lt _ (by omega))

theorem digVal_append (a b : Str) :
    digVal (a ++ b) = b.foldl (fun x c => 10 * x + dval c) (digVal a) := by
  unfold digVal
  rw [List.foldl_append]

theorem digVal_concat (a : Str) (c : Char) :
    digVal (a ++ [c]) = 10 * digVal a + dval c := by
  rw [digVal_append]
  rfl

theorem digVal_natStrAux : ∀ (f n : ℕ), n ≤ f → digVal (natStrAux f n) = n := by
  intro f
  induction f with
  | zero =>
    intro n hn
    interval_cases n
    rfl
  | succ f ih =>
    intro n hn
    rcases n with _ | n2
    · rfl
    · unfold natStrAux
      simp only []
      rw [digVal_concat, ih _ (by
          have h2 : (n2 + 1) / 10 < n2 + 1 := Nat.div_lt_self (Nat.succ_pos n2) (by norm_num)
          omega),
        dval_digitChar (Nat.mod_lt _ (by omega))]
      omega

theorem natStrAux_length : ∀ (f n k : ℕ), n < 10 ^ k → (natStrAux f n).length ≤ k := by
  intro f
  induction f with
  | zero => intro n k _; simp [natStrAux]
  | succ f ih =>
    intro n k hn
    rcases n with _ | n2
    · simp [natStrAux]
    · rcases k with _ | k2
      · simp at hn
      · unfold natStrAux
        simp only []
        rw [List.length_append, List.length_singleton]
        have hdiv : (n2 + 1) / 10 < 10 ^ k2 := by
          rw [Nat.div_lt_iff_lt_mul (by omega)]
          calc n2 + 1 < 10 ^ (k2 + 1) := hn
            _ = 10 ^ k2 * 10 := by ring
        have := ih ((n2 + 1) / 10) k2 hdiv
        omega

theorem natStr_ne_nil (n : ℕ) : natStr n ≠ [] := by
  unfold natStr
  split
  · exact List.cons_ne_nil _ _
  · rename_i hn
    unfold natStrAux
    rcases hm : n with _ | n2
    · exact absurd hm hn
    · simp

theorem natStr_digits (n : ℕ) : ∀ c ∈ natStr n, pyIsDigit c = true := by
  unfold natStr
  split
  · intro c hc
    rw [List.mem_singleton.mp hc]
    decide
  · exact natStrAux_digits _ _

theorem digVal_natStr (n : ℕ) : digVal (natStr n) = n := by
  unfold natStr
  split
  · rename_i h
    rw [h]
    rfl
  · exact digVal_natStrAux _ _ (by omega)

theorem natStr_length_le {n k : ℕ} (h : n < 10 ^ k) (hk : 1 ≤ k) :
    (natStr n).length ≤ k := by
  unfold natStr
  split
  · simpa using hk
  · exact natStrAux_length _ _ _ h

theorem digVal_replicate_zero (k : ℕ) : digVal (List.replicate k '0') = 0 := by
  induction k with
  | zero => rfl
  | succ k ih =>
    rw [List.replicate_succ]
    show List.foldl _ _ _ = 0
    rw [List.foldl_cons]
    exact ih

theorem digVal_fracPad9 (s : Str) : digVal (fracPad9 s) = digVal s := by
  unfold fracPad9
  rw [digVal_append, digVal_replicate_zero]
  rfl

theorem fracPad9_length {s : Str} (h : s.length ≤ 9) : (fracPad9 s).length = 9 := by
  unfold fracPad9
  rw [List.length_append, List.length_replicate]
  omega

theorem fracPad9_digits {s : Str} (h : ∀ c ∈ s, pyIsDigit c = true) :
    ∀ c ∈ fracPad9 s, pyIsDigit c = true := by
  intro c hc
  rcases List.mem_append.mp hc with h1 | h1
  · rw [List.eq_of_mem_replicate h1]
    decide
  · exact h c h1

/-! ### Parsing back a `%.9f` rendering -/

theorem parseUFloat_numStr (sg : ℤ) (ip fp : ℕ) (hfp : fp < 10 ^ 9) :
    parseUFloat sg (natStr ip ++ '.' :: fracPad9 (natStr fp)) =
      some (mkRat (sg * ((ip : ℤ) * 10 ^ 9 + (fp : ℤ))) ((10 : ℕ) ^ 9)) := by
  unfold parseUFloat
  rw [takeWhile_append_stop (natStr_digits ip) (by decide),
    dropWhile_append_stop (natStr_digits ip) (by decide)]
  unfold parseUFloatCore
  simp only []
  have hzp := fracPad9_digits (natStr_digits fp)
  rw [takeWhile_all hzp, dropWhile_all hzp]
  unfold parseUFloatFrac
  rw [if_neg (fun hcon => natStr_ne_nil ip hcon.1)]
  rw [digVal_natStr, digVal_fracPad9, digVal_natStr,
    fracPad9_length (natStr_length_le hfp (by omega))]

theorem parseFloat_numStr9 (q : ℚ) : parseFloat? (numStr9 q) = some (round9 q) := by
  unfold numStr9 round9
  simp only []
  have hfp : (scale9 q).natAbs % 10 ^ 9 < 10 ^ 9 := Nat.mod_lt _ (by omega)
  have hsum : ((scale9 q).natAbs / 10 ^ 9) * 10 ^ 9 + (scale9 q).natAbs % 10 ^ 9 =
      (scale9 q).natAbs := by
    rw [Nat.mul_comm]
    exact Nat.div_add_mod _ _
  by_cases hn : scale9 q < 0
  · rw [if_pos hn]
    show parseFloat? ('-' :: (natStr _ ++ '.' :: _)) = _
    unfold parseFloat?
    simp only []
    rw [if_pos trivial, parseUFloat_numStr (-1) _ _ hfp]
    have h1 : (((scale9 q).natAbs / 10 ^ 9 : ℕ) : ℤ) * 10 ^ 9 +
        (((scale9 q).natAbs % 10 ^ 9 : ℕ) : ℤ) = ((scale9 q).natAbs : ℤ) := by
      exact_mod_cast hsum
    have hnum : (-1 : ℤ) * ((((scale9 q).natAbs / 10 ^ 9 : ℕ) : ℤ) * 10 ^ 9 +
        (((scale9 q).natAbs % 10 ^ 9 : ℕ) : ℤ)) = scale9 q := by
      rw [h1]
      omega
    rw [hnum]
  · rw [if_neg hn, List.nil_append]
    rcases hcons : natStr ((scale9 q).natAbs / 10 ^ 9) with _ | ⟨c0, cs⟩
    · exact absurd hcons (natStr_ne_nil _)
    · have hc0 : pyIsDigit c0 = true := by
        apply natStr_digits
        rw [hcons]
        exact List.mem_cons_self _ _
      rw [List.cons_append]
      unfold parseFloat?
      simp only []
      rw [if_neg (digit_ne hc0).2.2.2.2.2.1, if_neg (digit_ne hc0).2.2.2.2.2.2.1,
        ← List.cons_append, ← hcons, parseUFloat_numStr 1 _ _ hfp]
      have h1 : (((scale9 q).natAbs / 10 ^ 9 : ℕ) : ℤ) * 10 ^ 9 +
          (((scale9 q).natAbs % 10 ^ 9 : ℕ) : ℤ) = ((scale9 q).natAbs : ℤ) := by
        exact_mod_cast hsum
      have hnum : (1 : ℤ) * ((((scale9 q).natAbs / 10 ^ 9 : ℕ) : ℤ) * 10 ^ 9 +
          (((scale9 q).natAbs % 10 ^ 9 : ℕ) : ℤ)) = scale9 q := by
        rw [h1]
        omega
      rw [hnum]

/-! ### `pySplit` over tokens, spaces and stripping -/

theorem swith_nil (s : Str) : swith s [] = true := by
  cases s <;> rfl

theorem swith_cons_head {c : Char} {s : Str} {p : Char} {ps : Str}
    (h : swith (c :: s) (p :: ps) = true) : c = p := by
  unfold swith at h
  simp only [Bool.and_eq_true, decide_eq_true_eq] at h
  exact h.1

theorem swith_append_space {w : Str} (hw : ∀ x ∈ w, pyIsAlpha x = true) :
    ∀ {a : Str} {c : Char} {r : Str}, pyIsSpace c = true →
      swith (a ++ c :: r) w = true → swith a w = true := by
  induction w with
  | nil => intro a c r _ _; exact swith_nil a
  | cons w0 ws ih =>
    intro a c r hc h
    rcases a with _ | ⟨a0, as⟩
    · exfalso
      have := swith_cons_head (by simpa using h)
      rw [this] at hc
      rw [alpha_not_space (hw w0 (List.mem_cons_self _ _))] at hc
      exact Bool.false_ne_true hc
    · rw [List.cons_append] at h
      unfold swith at h ⊢
      simp only [Bool.and_eq_true] at h ⊢
      exact ⟨h.1, ih (fun x hx => hw x (List.mem_cons_of_mem _ hx)) hc h.2⟩

theorem pySplitAux_nil_eq (acc : Str) :
    pySplitAux [] acc = if acc = [] then [] else [acc.reverse] := rfl

theorem pySplitAux_cons_eq (c : Char) (r : Str) (acc : Str) :
    pySplitAux (c :: r) acc =
      if pyIsSpace c then
        if acc = [] then pySplitAux r [] else acc.reverse :: pySplitAux r []
      else pySplitAux r (c :: acc) := rfl

theorem pySplitAux_space_cons {c : Char} (hc : pyIsSpace c = true) (r : Str) :
    pySplitAux (c :: r) [] = pySplitAux r [] := by
  rw [pySplitAux_cons_eq, hc]
  simp

theorem pySplitAux_all_space : ∀ {w : Str}, (∀ c ∈ w, pyIsSpace c = true) →
    pySplitAux w [] = [] := by
  intro w
  induction w with
  | nil => intro _; rfl
  | cons c r ih =>
    intro h
    rw [pySplitAux_space_cons (h c (List.mem_cons_self _ _))]
    exact ih (fun d hd => h d (List.mem_cons_of_mem _ hd))

theorem pySplitAux_all_space_acc : ∀ {w : Str}, (∀ c ∈ w, pyIsSpace c = true) →
    ∀ {acc : Str}, acc ≠ [] → pySplitAux w acc = [acc.reverse] := by
  intro w
  induction w with
  | nil =>
    intro _ acc hacc
    unfold pySplitAux
    rw [if_neg hacc]
  | cons c r ih =>
    intro h acc hacc
    unfold pySplitAux
    rw [h c (List.mem_cons_self _ _), if_pos rfl, if_neg hacc,
      pySplitAux_all_space (fun d hd => h d (List.mem_cons_of_mem _ hd))]

theorem pySplitAux_leading_space : ∀ {w : Str}, (∀ c ∈ w, pyIsSpace c = true) →
    ∀ (y : Str), pySplitAux (w ++ y) [] = pySplitAux y [] := by
  intro w
  induction w with
  | nil => intro _ y; rfl
  | cons c r ih =>
    intro h y
    rw [List.cons_append, pySplitAux_space_cons (h c (List.mem_cons_self _ _))]
    exact ih (fun d hd => h d (List.mem_cons_of_mem _ hd)) y

theorem pySplitAux_trailing_space {w : Str} (hw : ∀ c ∈ w, pyIsSpace c = true) :
    ∀ (y : Str) (acc : Str), pySplitAux (y ++ w) acc = pySplitAux y acc := by
  intro y
  induction y with
  | nil =>
    intro acc
    rcases hacc : acc with _ | ⟨a, as⟩
    · rw [List.nil_append, pySplitAux_all_space hw]
      rfl
    · rw [List.nil_append, pySplitAux_all_space_acc hw (by simp)]
      rfl
  | cons d y2 ih =>
    intro acc
    rw [List.cons_append, pySplitAux_cons_eq, pySplitAux_cons_eq]
    by_cases hd : pyIsSpace d = true
    · rw [hd, if_pos rfl, if_pos rfl]
      by_cases hacc : acc = []
      · rw [if_pos hacc, if_pos hacc]
        exact ih []
      · rw [if_neg hacc, if_neg hacc, ih []]
    · rw [Bool.not_eq_true] at hd
      rw [hd, if_neg (by simp), if_neg (by simp)]
      exact ih (d :: acc)

theorem pySplitAux_token : ∀ {tok : Str}, (∀ c ∈ tok, pyIsSpace c = false) →
    ∀ {y : Str}, (y = [] ∨ ∃ c r, y = c :: r ∧ pyIsSpace c = true) →
    ∀ {acc : Str}, (acc ≠ [] ∨ tok ≠ []) →
    pySplitAux (tok ++ y) acc = (acc.reverse ++ tok) :: pySplitAux y [] := by
  intro tok
  induction tok with
  | nil =>
    intro _ y hy acc hne
    have hacc : acc ≠ [] := by
      rcases hne with h | h
      · exact h
      · exact absurd rfl h
    rcases hy with rfl | ⟨c, r, rfl, hc⟩
    · rw [List.nil_append]
      simp only [pySplitAux_nil_eq]
      rw [if_neg hacc]
      simp
    · rw [List.nil_append, pySplitAux_cons_eq, hc, if_pos rfl, if_neg hacc,
        pySplitAux_cons_eq, hc, if_pos rfl, if_pos rfl]
      simp
  | cons t ts ih =>
    intro htok y hy acc _
    rw [List.cons_append, pySplitAux_cons_eq, htok t (List.mem_cons_self _ _),
      if_neg (by simp),
      ih (fun d hd => htok d (List.mem_cons_of_mem _ hd)) hy (Or.inl (by simp))]
    simp

theorem pySplit_single_token {tok : Str} (htok : ∀ c ∈ tok, pyIsSpace c = false)
    (hne : tok ≠ []) : pySplit tok = [tok] := by
  have := @pySplitAux_token tok htok [] (Or.inl rfl) [] (Or.inr hne)
  rw [List.append_nil] at this
  unfold pySplit
  rw [this]
  rfl

/-! ### Stripping -/

theorem head?_dropWhile_false {p : Char → Bool} {s : Str} {c : Char}
    (h : (s.dropWhile p).head? = some c) : p c = false := by
  rcases hd : s.dropWhile p with _ | ⟨x, r⟩
  · rw [hd] at h
    cases h
  · rw [hd] at h
    injection h with h2
    rw [← h2]
    exact head_dropWhile_false hd

theorem stripLeft_decomp (s : Str) :
    s.dropWhile pyIsSpace =
      pyStrip s ++ ((s.dropWhile pyIsSpace).reverse.takeWhile pyIsSpace).reverse := by
  unfold pyStrip
  conv_lhs => rw [← List.reverse_reverse (s.dropWhile pyIsSpace)]
  conv_lhs => rw [← List.takeWhile_append_dropWhile
    (p := pyIsSpace) (l := (s.dropWhile pyIsSpace).reverse)]
  rw [List.reverse_append]

theorem pyStrip_decomp (s : Str) :
    ∃ a b, s = a ++ (pyStrip s ++ b) ∧ (∀ c ∈ a, pyIsSpace c = true) ∧
      (∀ c ∈ b, pyIsSpace c = true) := by
  refine ⟨s.takeWhile pyIsSpace,
    ((s.dropWhile pyIsSpace).reverse.takeWhile pyIsSpace).reverse, ?_, ?_, ?_⟩
  · conv_lhs => rw [← List.takeWhile_append_dropWhile (p := pyIsSpace) (l := s),
      stripLeft_decomp s]
  · intro c hc
    exact List.mem_takeWhile_imp hc
  · intro c hc
    rw [List.mem_reverse] at hc
    exact List.mem_takeWhile_imp hc

theorem mem_pyStrip {s : Str} {c : Char} (h : c ∈ pyStrip s) : c ∈ s := by
  obtain ⟨a, b, hdec, -, -⟩ := pyStrip_decomp s
  rw [hdec]
  exact List.mem_append_right a (List.mem_append_left b h)

theorem pySplit_pyStrip (s : Str) : pySplit (pyStrip s) = pySplit s := by
  obtain ⟨a, b, hdec, ha, hb⟩ := pyStrip_decomp s
  conv_rhs => rw [hdec]
  unfold pySplit
  rw [pySplitAux_leading_space ha, pySplitAux_trailing_space hb]

theorem dropWhile_eq_self_head? {p : Char → Bool} {s : Str}
    (h : ∀ c, s.head? = some c → p c = false) : s.dropWhile p = s := by
  rcases s with _ | ⟨c, r⟩
  · rfl
  · exact List.dropWhile_cons_of_neg (by rw [h c rfl]; exact Bool.false_ne_true)

theorem pyStrip_eq_self {s : Str}
    (hh : ∀ c, s.head? = some c → pyIsSpace c = false)
    (hl : ∀ c, s.getLast? = some c → pyIsSpace c = false) : pyStrip s = s := by
  unfold pyStrip
  rw [dropWhile_eq_self_head? hh,
    dropWhile_eq_self_head? (fun c hc => hl c (by rwa [List.head?_reverse] at hc)),
    List.reverse_reverse]

theorem pyStrip_head?_not_space {s : Str} {c : Char}
    (h : (pyStrip s).head? = some c) : pyIsSpace c = false := by
  rcases hd : pyStrip s with _ | ⟨x, r⟩
  · rw [hd] at h
    cases h
  · rw [hd] at h
    injection h with h2
    rw [← h2]
    exact pyStrip_head_not_space hd

theorem pyStrip_getLast?_not_space {s : Str} {c : Char}
    (h : (pyStrip s).getLast? = some c) : pyIsSpace c = false := by
  apply head?_dropWhile_false (p := pyIsSpace) (s := (s.dropWhile pyIsSpace).reverse)
  show ((s.dropWhile pyIsSpace).reverse.dropWhile pyIsSpace).head? = some c
  rw [← List.getLast?_reverse]
  exact h

theorem pyStrip_idem (s : Str) : pyStrip (pyStrip s) = pyStrip s :=
  pyStrip_eq_self (fun _ hc => pyStrip_head?_not_space hc)
    (fun _ hc => pyStrip_getLast?_not_space hc)

theorem pyStrip_eq_nil_all_space {s : Str} (h : pyStrip s = []) :
    ∀ c ∈ s, pyIsSpace c = true := by
  obtain ⟨a, b, hdec, ha, hb⟩ := pyStrip_decomp s
  rw [h, List.nil_append] at hdec
  intro c hc
  rw [hdec] at hc
  rcases List.mem_append.mp hc with h1 | h1
  · exact ha c h1
  · exact hb c h1

theorem pyUpper_pyStrip (s : Str) : pyStrip (pyUpper s) = pyUpper (pyStrip s) := by
  have hps : (pyIsSpace ∘ pyUpperChar) = pyIsSpace := funext pyIsSpace_upperChar
  unfold pyStrip pyUpper
  rw [List.dropWhile_map, hps, ← List.map_reverse, List.dropWhile_map, hps,
    ← List.map_reverse]

theorem pyUpper_id {s : Str} (h : ∀ c ∈ s, pyUpperChar c = c) : pyUpper s = s := by
  unfold pyUpper
  rw [List.map_congr_left h]
  simp

theorem splitHash0_eq_self {s : Str} (h : ∀ c ∈ s, c ≠ '#') : splitHash0 s = s := by
  unfold splitHash0
  apply takeWhile_all
  intro c hc
  simp [h c hc]

/-! ### `splitlines` of a rendered join -/

theorem splitNl_cons_eq (c : Char) (r : Str) :
    splitNl (c :: r) =
      if c = '\n' then [] :: splitNl r
      else
        match splitNl r with
        | [] => [[c]]
        | h :: t => (c :: h) :: t := rfl

theorem splitNl_no_nl : ∀ {x : Str}, (∀ c ∈ x, c ≠ '\n') → splitNl x = [x] := by
  intro x
  induction x with
  | nil => intro _; rfl
  | cons c r ih =>
    intro h
    rw [splitNl_cons_eq, if_neg (h c (List.mem_cons_self _ _)),
      ih (fun d hd => h d (List.mem_cons_of_mem _ hd))]

theorem splitNl_append {x : Str} (hx : ∀ c ∈ x, c ≠ '\n') (t : Str) :
    splitNl (x ++ '\n' :: t) = x :: splitNl t := by
  induction x with
  | nil =>
    rw [List.nil_append, splitNl_cons_eq, if_pos rfl]
  | cons c r ih =>
    rw [List.cons_append, splitNl_cons_eq, if_neg (hx c (List.mem_cons_self _ _)),
      ih (fun d hd => hx d (List.mem_cons_of_mem _ hd))]

theorem joinWith_ne_nil (ch : Char) {L : List Str} (hL : L ≠ [])
    (hne : ∀ l ∈ L, l ≠ []) : joinWith ch L ≠ [] := by
  rcases L with _ | ⟨x, t⟩
  · exact absurd rfl hL
  · rcases t with _ | ⟨y, r⟩
    · exact hne x (List.mem_cons_self _ _)
    · show x ++ ch :: joinWith ch (y :: r) ≠ []
      rcases hx : x with _ | ⟨c, cs⟩
      · simp
      · simp

theorem joinWith_getLast? (ch : Char) :
    ∀ (L : List Str), L ≠ [] → (∀ l ∈ L, l ≠ []) →
    ∃ z, (joinWith ch L).getLast? = some z ∧ ∃ l ∈ L, z ∈ l := by
  intro L
  induction L with
  | nil => intro h _; exact absurd rfl h
  | cons x t ih =>
    intro _ hne
    rcases t with _ | ⟨y, r⟩
    · have hx : x ≠ [] := hne x (List.mem_cons_self _ _)
      rcases hz : x.getLast? with _ | z
      · rw [← Option.not_isSome_iff_eq_none] at hz
        rw [List.getLast?_isSome] at hz
        exact absurd hx (by simpa using hz)
      · refine ⟨z, hz, x, List.mem_cons_self _ _, ?_⟩
        rcases List.mem_getLast?_eq_getLast (by rw [hz]; rfl) with ⟨hne2, hzl⟩
        rw [hzl]
        exact List.getLast_mem hne2
    · obtain ⟨z, hz, l, hl, hzl⟩ := ih (by simp)
        (fun e he => hne e (List.mem_cons_of_mem _ he))
      refine ⟨z, ?_, l, List.mem_cons_of_mem _ hl, hzl⟩
      show ((x ++ ch :: joinWith ch (y :: r)).getLast? = some z)
      rw [List.getLast?_append]
      have hjoin : joinWith ch (y :: r) ≠ [] :=
        joinWith_ne_nil ch (by simp) (fun e he => hne e (List.mem_cons_of_mem _ he))
      rcases hj : joinWith ch (y :: r) with _ | ⟨j0, js⟩
      · exact absurd hj hjoin
      · rw [hj] at hz
        rw [show (ch :: (j0 :: js)).getLast? = (j0 :: js).getLast? from rfl, hz]
        rfl

theorem splitNl_joinWith : ∀ {L : List Str}, L ≠ [] →
    (∀ l ∈ L, ∀ c ∈ l, c ≠ '\n') → splitNl (joinWith '\n' L) = L := by
  intro L
  induction L with
  | nil => intro h _; exact absurd rfl h
  | cons x t ih =>
    intro _ hnl
    rcases t with _ | ⟨y, r⟩
    · exact splitNl_no_nl (hnl x (List.mem_cons_self _ _))
    · show splitNl (x ++ '\n' :: joinWith '\n' (y :: r)) = _
      rw [splitNl_append (hnl x (List.mem_cons_self _ _)),
        ih (by simp) (fun l hl => hnl l (List.mem_cons_of_mem _ hl))]

theorem splitlinesPy_joinLines {L : List Str} (hL : L ≠ [])
    (hne : ∀ l ∈ L, l ≠ []) (hnl : ∀ l ∈ L, ∀ c ∈ l, c ≠ '\n') :
    splitlinesPy (joinLines L) = L := by
  obtain ⟨z, hz, l, hl, hzl⟩ := joinWith_getLast? '\n' L hL hne
  have hzn : z ≠ '\n' := hnl l hl z hzl
  have hmain : splitNl (joinWith '\n' L) = L := splitNl_joinWith hL hnl
  have hjoin : joinWith '\n' L ≠ [] := joinWith_ne_nil '\n' hL hne
  unfold joinLines splitlinesPy
  rcases hj : joinWith '\n' L with _ | ⟨c, r⟩
  · exact absurd hj hjoin
  · rw [hj] at hz hmain
    simp only []
    rw [hz, if_neg (by simpa using hzn), hmain]

/-! ### Characters and tokens of rendered numbers -/

theorem numStr9_eq (q : ℚ) :
    numStr9 q = (if scale9 q < 0 then ['-'] else []) ++
      natStr ((scale9 q).natAbs / 10 ^ 9) ++
      '.' :: fracPad9 (natStr ((scale9 q).natAbs % 10 ^ 9)) := rfl

theorem numStr9_chars (q : ℚ) : ∀ c ∈ numStr9 q, numCharB c = true := by
  intro c hc
  rw [numStr9_eq] at hc
  simp only [List.mem_append, List.mem_cons] at hc
  rcases hc with (hc | hc) | rfl | hc
  · split at hc
    · rw [List.mem_singleton.mp hc]
      decide
    · cases hc
  · exact digit_numChar (natStr_digits _ c hc)
  · decide
  · exact digit_numChar (fracPad9_digits (natStr_digits _) c hc)

theorem numStr9_ne_nil (q : ℚ) : numStr9 q ≠ [] := by
  rw [numStr9_eq]
  simp

theorem fmt159_eq (q : ℚ) :
    fmt159 q = List.replicate (15 - (numStr9 q).length) ' ' ++ numStr9 q := rfl

theorem fmt159_ne_nil (q : ℚ) : fmt159 q ≠ [] := by
  rw [fmt159_eq]
  intro h
  exact numStr9_ne_nil q (List.append_eq_nil.mp h).2

theorem pySplitAux_fmt159_cons (q : ℚ) (tail : Str)
    (htail : tail = [] ∨ ∃ c r, tail = c :: r ∧ pyIsSpace c = true) :
    pySplitAux (fmt159 q ++ tail) [] = numStr9 q :: pySplitAux tail [] := by
  rw [fmt159_eq, List.append_assoc,
    pySplitAux_leading_space
      (fun c hc => by rw [List.eq_of_mem_replicate hc]; decide),
    pySplitAux_token (fun c hc => (numChar_ne (numStr9_chars q c hc)).1) htail
      (Or.inr (numStr9_ne_nil q))]
  simp

theorem pySplit_fmtRow : ∀ {row : List ℚ}, row ≠ [] →
    pySplit (fmtRow row) = row.map numStr9 := by
  intro row
  induction row with
  | nil => intro h; exact absurd rfl h
  | cons q rest ih =>
    intro _
    rcases rest with _ | ⟨q2, r2⟩
    · show pySplitAux (fmt159 q) [] = [numStr9 q]
      have h0 := pySplitAux_fmt159_cons q [] (Or.inl rfl)
      rw [List.append_nil] at h0
      rw [h0]
      rfl
    · show pySplitAux (fmt159 q ++ ' ' ::
        joinWith ' ' (fmt159 q2 :: List.map fmt159 r2)) [] = _
      rw [pySplitAux_fmt159_cons q _ (Or.inr ⟨' ', _, rfl, by decide⟩),
        pySplitAux_space_cons (by decide)]
      have h1 := ih (by simp)
      unfold pySplit fmtRow at h1
      rw [List.map_cons] at h1
      rw [h1]
      rfl

theorem parseFloats_cons (t : Str) (ts : List Str) :
    parseFloats (t :: ts) =
      match parseFloat? t with
      | none => none
      | some q => (parseFloats ts).map (q :: ·) := rfl

theorem parseFloats_map_numStr9 : ∀ (row : List ℚ),
    parseFloats (row.map numStr9) = some (row.map round9) := by
  intro row
  induction row with
  | nil => rfl
  | cons q rest ih =>
    show parseFloats (numStr9 q :: rest.map numStr9) = _
    rw [parseFloats_cons, parseFloat_numStr9, ih]
    rfl

theorem mem_joinWith {sep c : Char} :
    ∀ {L : List Str}, c ∈ joinWith sep L → c = sep ∨ ∃ l ∈ L, c ∈ l := by
  intro L
  induction L with
  | nil => intro h; cases h
  | cons x t ih =>
    intro h
    rcases t with _ | ⟨y, r⟩
    · exact Or.inr ⟨x, List.mem_singleton_self x, h⟩
    · rcases List.mem_append.mp h with h1 | h1
      · exact Or.inr ⟨x, List.mem_cons_self _ _, h1⟩
      · rcases List.mem_cons.mp h1 with rfl | h2
        · exact Or.inl rfl
        · rcases ih h2 with h3 | ⟨l, hl, hcl⟩
          · exact Or.inl h3
          · exact Or.inr ⟨l, List.mem_cons_of_mem _ hl, hcl⟩

theorem fmtRow_chars {row : List ℚ} :
    ∀ c ∈ fmtRow row, c = ' ' ∨ numCharB c = true := by
  intro c hc
  unfold fmtRow at hc
  rcases mem_joinWith hc with rfl | ⟨l, hl, hcl⟩
  · exact Or.inl rfl
  · rcases List.mem_map.mp hl with ⟨q, -, rfl⟩
    rw [fmt159_eq] at hcl
    rcases List.mem_append.mp hcl with h1 | h1
    · exact Or.inl (List.eq_of_mem_replicate h1)
    · exact Or.inr (numStr9_chars q c h1)

theorem fmtRow_ne_nil {row : List ℚ} (h : row ≠ []) : fmtRow row ≠ [] := by
  unfold fmtRow
  apply joinWith_ne_nil
  · simp [h]
  · intro l hl
    rcases List.mem_map.mp hl with ⟨q, -, rfl⟩
    exact fmt159_ne_nil q

theorem pyStrip_fmtRow_chars {row : List ℚ} :
    ∀ c ∈ pyStrip (fmtRow row), c = ' ' ∨ numCharB c = true :=
  fun c hc => fmtRow_chars c (mem_pyStrip hc)

theorem pyStrip_fmtRow_ne_nil {row : List ℚ} (h : row ≠ []) :
    pyStrip (fmtRow row) ≠ [] := by
  intro hnil
  have h1 : pySplit (fmtRow row) = row.map numStr9 := pySplit_fmtRow h
  rw [← pySplit_pyStrip, hnil] at h1
  rw [show pySplit ([] : Str) = [] from rfl] at h1
  rcases row with _ | ⟨q, r⟩
  · exact h rfl
  · exact List.noConfusion h1

theorem pyUpper_strip_fmtRow (row : List ℚ) :
    pyUpper (pyStrip (fmtRow row)) = pyStrip (fmtRow row) := by
  apply pyUpper_id
  intro c hc
  rcases pyStrip_fmtRow_chars c hc with rfl | hn
  · decide
  · exact (numChar_ne hn).2.2.2.2.2

theorem replaceDe_eq_self {s : Str} (h : ∀ c ∈ s, c ≠ 'D') : replaceDe s = s := by
  unfold replaceDe
  rw [List.map_congr_left (fun c hc => if_neg (h c hc))]
  simp

/-! ### Shell letters and rendered lines -/

theorem SPDF_getElem? {l : ℕ} (h : l < 8) : SPDFl[l]? = some (SPDFl.getD l 'S') := by
  interval_cases l <;> decide

theorem SPDF_letter_facts {l : ℕ} (h : l < 8) :
    pyIsAlpha (SPDFl.getD l 'S') = true ∧
      pyUpperChar (SPDFl.getD l 'S') = SPDFl.getD l 'S' ∧
      pyIsSpace (SPDFl.getD l 'S') = false ∧
      MAPSPDF [SPDFl.getD l 'S'] = some l ∧
      [SPDFl.getD l 'S'] ≠ str "SP" ∧
      SPDFl.getD l 'S' ≠ '\n' ∧ SPDFl.getD l 'S' ≠ '#' := by
  interval_cases l <;>
    exact ⟨by decide, by decide, by decide, by decide, by decide, by decide,
      by decide⟩

theorem header_shape (s : Str) (letter : Char) :
    ∃ sp, headerLine s letter = s ++ sp ++ [letter] ∧ sp ≠ [] ∧
      ∀ c ∈ sp, c = ' ' := by
  refine ⟨List.replicate (2 - s.length) ' ' ++ str "    ", ?_, by simp [str], ?_⟩
  · unfold headerLine padTo2
    simp [List.append_assoc]
  · intro c hc
    rcases List.mem_append.mp hc with h1 | h1
    · exact List.eq_of_mem_replicate h1
    · exact (by decide : ∀ x ∈ str "    ", x = ' ') c h1

theorem pyUpper_sandwich {sp : Str} (hsp : ∀ c ∈ sp, c = ' ') {letter : Char}
    (hl : pyUpperChar letter = letter) (s : Str) :
    pyUpper (s ++ sp ++ [letter]) = pyUpper s ++ sp ++ [letter] := by
  unfold pyUpper
  rw [List.map_append, List.map_append]
  have h1 : List.map pyUpperChar sp = sp := by
    have hcongr : ∀ c ∈ sp, pyUpperChar c = c := fun c hc => by
      rw [hsp c hc]
      decide
    rw [List.map_congr_left hcongr]
    simp
  have h2 : List.map pyUpperChar [letter] = [letter] := by
    show [pyUpperChar letter] = [letter]
    rw [hl]
  rw [h1, h2]

theorem swith_sandwich_false {s w : Str} (hw : ∀ x ∈ w, pyIsAlpha x = true)
    (hfs : swith s w = false) {sp : Str} (hsp : sp ≠ []) (hsps : ∀ c ∈ sp, c = ' ')
    (tail : Str) : swith (s ++ sp ++ tail) w = false := by
  rcases sp with _ | ⟨c0, sp2⟩
  · exact absurd rfl hsp
  · cases hres : swith (s ++ (c0 :: sp2) ++ tail) w
    · rfl
    · exfalso
      rw [List.append_assoc, List.cons_append] at hres
      have := swith_append_space hw
        (by rw [hsps c0 (List.mem_cons_self _ _)]; decide) hres
      rw [hfs] at this
      exact Bool.false_ne_true this

theorem swith_head_num_false {x : Str} {cx : Char} {r : Str} (hx : x = cx :: r)
    (hnum : numCharB cx = true) {w0 : Char} {w : Str} (hw0 : pyIsAlpha w0 = true) :
    swith x (w0 :: w) = false := by
  rw [hx]
  cases hs : swith (cx :: r) (w0 :: w)
  · rfl
  · exfalso
    have he := swith_cons_head hs
    rw [← he] at hw0
    rw [(numChar_ne hnum).2.1] at hw0
    exact Bool.false_ne_true hw0

/-! ### `cookLine` on rendered lines -/

theorem cookLine_eq (d : Str) (hnohash : ∀ c ∈ d, c ≠ '#') :
    cookLine d =
      if pyUpper (pyStrip d) ≠ [] ∧ ¬swith (pyUpper (pyStrip d)) (str "END") ∧
          ¬swith (pyUpper (pyStrip d)) (str "BASIS")
        then some (pyUpper (pyStrip d)) else none := by
  unfold cookLine
  rw [splitHash0_eq_self hnohash]

theorem cookLine_keep {d : Str} (hnohash : ∀ c ∈ d, c ≠ '#')
    (hne : pyUpper (pyStrip d) ≠ [])
    (hEND : swith (pyUpper (pyStrip d)) (str "END") = false)
    (hBASIS : swith (pyUpper (pyStrip d)) (str "BASIS") = false) :
    cookLine d = some (pyUpper (pyStrip d)) := by
  rw [cookLine_eq d hnohash,
    if_pos ⟨hne, by simp [hEND], by simp [hBASIS]⟩]

theorem cookLine_hash (x : Str) : cookLine ('#' :: x) = none := by
  unfold cookLine
  rw [show splitHash0 ('#' :: x) = [] from List.takeWhile_cons_of_neg (by decide)]
  simp [pyStrip, pyUpper]

theorem cookLine_fmtRow {row : List ℚ} (h : row ≠ []) :
    cookLine (fmtRow row) = some (pyStrip (fmtRow row)) := by
  have hnohash : ∀ c ∈ fmtRow row, c ≠ '#' := by
    intro c hc
    rcases fmtRow_chars c hc with rfl | hn
    · decide
    · exact (numChar_ne hn).2.2.1
  have hid := pyUpper_strip_fmtRow row
  have hnil := pyStrip_fmtRow_ne_nil h
  rcases hhead : pyStrip (fmtRow row) with _ | ⟨cx, r⟩
  · exact absurd hhead hnil
  · have hnum : numCharB cx = true := by
      rcases pyStrip_fmtRow_chars cx (by rw [hhead]; exact List.mem_cons_self _ _)
        with rfl | hn
      · exact absurd (pyStrip_head_not_space hhead) (by simp [pyIsSpace])
      · exact hn
    rw [cookLine_keep hnohash (by rw [hid]; exact hnil)
      (by rw [hid]; exact swith_head_num_false hhead hnum (by decide))
      (by rw [hid]; exact swith_head_num_false hhead hnum (by decide)), hid,
      hhead]

/-! ### The summary comment line -/

theorem mem_insertAsc {x y : ℕ} :
    ∀ {l : List ℕ}, y ∈ insertAsc x l → y = x ∨ y ∈ l := by
  intro l
  induction l with
  | nil => intro h; exact Or.inl (List.mem_singleton.mp h)
  | cons z zs ih =>
    intro h
    unfold insertAsc at h
    split at h
    · rcases List.mem_cons.mp h with rfl | h2
      · exact Or.inl rfl
      · exact Or.inr h2
    · rcases List.mem_cons.mp h with rfl | h2
      · exact Or.inr (List.mem_cons_self _ _)
      · rcases ih h2 with h3 | h3
        · exact Or.inl h3
        · exact Or.inr (List.mem_cons_of_mem _ h3)

theorem mem_sortAsc {y : ℕ} : ∀ {l : List ℕ}, y ∈ sortAsc l → y ∈ l := by
  intro l
  induction l with
  | nil => intro h; cases h
  | cons z zs ih =>
    intro h
    rcases mem_insertAsc h with rfl | h2
    · exact List.mem_cons_self _ _
    · exact List.mem_cons_of_mem _ (ih h2)

theorem mem_dedupAdj {y : ℕ} : ∀ {l : List ℕ}, y ∈ dedupAdj l → y ∈ l := by
  intro l
  induction l with
  | nil => intro h; cases h
  | cons z zs ih =>
    intro h
    rcases zs with _ | ⟨w, ws⟩
    · exact h
    · unfold dedupAdj at h
      split at h
      · exact List.mem_cons_of_mem _ (ih h)
      · rcases List.mem_cons.mp h with rfl | h2
        · exact List.mem_cons_self _ _
        · exact List.mem_cons_of_mem _ (ih h2)

theorem mem_sortedDedup {y : ℕ} {l : List ℕ} (h : y ∈ sortedDedup l) : y ∈ l :=
  mem_sortAsc (mem_dedupAdj h)

theorem firstRows?_isSome : ∀ {bs : List Shell}, (∀ sh ∈ bs, sh.rows ≠ []) →
    ∃ frs, firstRows? bs = some frs := by
  intro bs
  induction bs with
  | nil => intro _; exact ⟨[], rfl⟩
  | cons b rest ih =>
    intro h
    obtain ⟨frs, hfrs⟩ := ih (fun sh hsh => h sh (List.mem_cons_of_mem _ hsh))
    rcases hrows : b.rows with _ | ⟨r, rs⟩
    · exact absurd hrows (h b (List.mem_cons_self _ _))
    · refine ⟨r :: frs, ?_⟩
      unfold firstRows?
      rw [hrows, hfrs]
      rfl

theorem goComment_isSome (ls : List ℕ) (np nc : List ℤ) :
    ∀ {ks : List ℕ}, (∀ l ∈ ks, l < 8) →
      ∃ cols, goComment ls np nc ks = some cols := by
  intro ks
  induction ks with
  | nil => intro _; exact ⟨([], []), rfl⟩
  | cons l rest ih =>
    intro h
    obtain ⟨cols, hcols⟩ := ih (fun x hx => h x (List.mem_cons_of_mem _ hx))
    refine ⟨((intStr (sumWhere ls np l) ++ [pyLowerChar (SPDFl.getD l 'S')]) ::
        cols.1,
      (intStr (sumWhere ls nc l) ++ [pyLowerChar (SPDFl.getD l 'S')]) ::
        cols.2), ?_⟩
    unfold goComment
    rw [SPDF_getElem? (h l (List.mem_cons_self _ _)), hcols]

theorem intStr_chars (z : ℤ) : ∀ c ∈ intStr z, c ≠ '\n' := by
  intro c hc
  unfold intStr at hc
  split at hc
  · rcases List.mem_cons.mp hc with rfl | h2
    · decide
    · exact (digit_ne (natStr_digits _ c h2)).2.2.2.1
  · exact (digit_ne (natStr_digits _ c hc)).2.2.2.1

theorem goComment_chars (ls : List ℕ) (np nc : List ℤ) :
    ∀ {ks : List ℕ} {cols : List Str × List Str},
      goComment ls np nc ks = some cols →
      (∀ e ∈ cols.1, ∀ c ∈ e, c ≠ '\n') ∧ (∀ e ∈ cols.2, ∀ c ∈ e, c ≠ '\n') := by
  intro ks
  induction ks with
  | nil =>
    intro cols h
    cases h
    constructor
    · intro e he
      cases he
    · intro e he
      cases he
  | cons l rest ih =>
    intro cols h
    unfold goComment at h
    cases hget : SPDFl[l]? <;> rw [hget] at h
    · exact absurd h (by simp)
    · rename_i letter
      simp only [] at h
      cases hrec : goComment ls np nc rest <;> rw [hrec] at h
      · exact absurd h (by simp)
      · rename_i p
        simp only [] at h
        cases h
        have hlet : letter ∈ SPDFl := by
          rcases List.getElem?_eq_some.mp hget with ⟨hlt, heq⟩
          rw [← heq]
          exact List.getElem_mem _
        have hlow : pyLowerChar letter ≠ '\n' := by
          have halpha : pyIsAlpha letter = true :=
            (by decide : ∀ x ∈ SPDFl, pyIsAlpha x = true) letter hlet
          exact alpha_ne_nl (alpha_lowerChar halpha)
        obtain ⟨ih1, ih2⟩ := ih hrec
        constructor
        · intro e he c hc
          rcases List.mem_cons.mp he with rfl | h2
          · rcases List.mem_append.mp hc with h3 | h3
            · exact intStr_chars _ c h3
            · rw [List.mem_singleton.mp h3]
              exact hlow
          · exact ih1 e h2 c hc
        · intro e he c hc
          rcases List.mem_cons.mp he with rfl | h2
          · rcases List.mem_append.mp hc with h3 | h3
            · exact intStr_chars _ c h3
            · rw [List.mem_singleton.mp h3]
              exact hlow
          · exact ih2 e h2 c hc

/-! ### Reparsing the rendered lines -/

theorem processLines_cons (l : Str) (ls : List Str) (st : PState) :
    processLines (l :: ls) st =
      match parseLine st l with
      | .ok st2 => processLines ls st2
      | .error e => .error e := rfl

theorem processLines_append : ∀ (xs ys : List Str) (st : PState),
    processLines (xs ++ ys) st =
      match processLines xs st with
      | .ok st2 => processLines ys st2
      | .error e => .error e := by
  intro xs
  induction xs with
  | nil => intro ys st; rfl
  | cons x xs2 ih =>
    intro ys st
    rw [List.cons_append, processLines_cons, processLines_cons]
    cases parseLine st x
    · rfl
    · exact ih ys _

theorem renderShells_cons (s : Str) (b : Shell) (bs : List Shell) :
    renderShells s (b :: bs) =
      match SPDFl[b.l]? with
      | none => none
      | some letter =>
        match renderShells s bs with
        | none => none
        | some rest => some ((headerLine s letter :: b.rows.map fmtRow) ++ rest) :=
  rfl

theorem appendLast_snoc (A : List Shell) (p : Shell) (row : List ℚ) :
    appendLast (A ++ [p]) row = .ok (A ++ [⟨p.l, p.rows ++ [row]⟩]) := by
  unfold appendLast
  rw [List.reverse_append]
  simp

theorem pySplit_header {s : Str} (hs1 : s ≠ []) (hs2 : ∀ c ∈ s, pyIsAlpha c = true)
    {sp : Str} (hsp : ∀ c ∈ sp, c = ' ') (hspn : sp ≠ []) {letter : Char}
    (hls : pyIsSpace letter = false) :
    pySplit (pyUpper s ++ sp ++ [letter]) = [pyUpper s, [letter]] := by
  have htokns : ∀ c ∈ pyUpper s, pyIsSpace c = false := by
    intro c hc
    rcases List.mem_map.mp hc with ⟨d, hd, rfl⟩
    exact alpha_not_space (alpha_upperChar (hs2 d hd))
  have hysp : sp ++ [letter] = [] ∨
      ∃ c r, sp ++ [letter] = c :: r ∧ pyIsSpace c = true := by
    rcases sp with _ | ⟨c0, r0⟩
    · exact absurd rfl hspn
    · exact Or.inr ⟨c0, r0 ++ [letter], rfl,
        by rw [hsp c0 (List.mem_cons_self _ _)]; decide⟩
  have htne : pyUpper s ≠ [] := fun h => hs1 (List.map_eq_nil.mp h)
  have hsingle : pySplitAux [letter] [] = [[letter]] :=
    pySplit_single_token
      (fun c hc => by rw [List.mem_singleton.mp hc]; exact hls) (by simp)
  unfold pySplit
  rw [List.append_assoc, pySplitAux_token htokns hysp (Or.inr htne),
    pySplitAux_leading_space (fun c hc => by rw [hsp c hc]; decide) [letter],
    hsingle]
  simp

theorem pyStrip_sandwich {s : Str} (hs1 : s ≠ [])
    (hs2 : ∀ c ∈ s, pyIsAlpha c = true)
    {sp : Str} (hsp : ∀ c ∈ sp, c = ' ') {letter : Char}
    (hls : pyIsSpace letter = false) :
    pyStrip (s ++ sp ++ [letter]) = s ++ sp ++ [letter] := by
  apply pyStrip_eq_self
  · intro c hc
    rcases s with _ | ⟨c0, s2⟩
    · exact absurd rfl hs1
    · rw [show (c0 :: s2 : Str) ++ sp ++ [letter] =
          c0 :: (s2 ++ sp ++ [letter]) from by simp] at hc
      injection hc with h2
      rw [← h2]
      exact alpha_not_space (hs2 c0 (List.mem_cons_self _ _))
  · intro c hc
    rw [List.getLast?_concat] at hc
    injection hc with h2
    rw [← h2]
    exact hls

theorem pyUpper_ne_nil {s : Str} (h : s ≠ []) : pyUpper s ≠ [] :=
  fun he => h (List.map_eq_nil.mp he)

theorem pyUpper_alpha {s : Str} (h : ∀ c ∈ s, pyIsAlpha c = true) :
    ∀ c ∈ pyUpper s, pyIsAlpha c = true := by
  intro c hc
  rcases List.mem_map.mp hc with ⟨d, hd, rfl⟩
  exact alpha_upperChar (h d hd)

theorem cookLine_header {s : Str} (hs1 : s ≠ []) (hs2 : ∀ c ∈ s, pyIsAlpha c = true)
    (hEND : swith (pyUpper s) (str "END") = false)
    (hBASIS : swith (pyUpper s) (str "BASIS") = false)
    {l : ℕ} (hl : l < 8) :
    cookLine (headerLine s (SPDFl.getD l 'S')) =
      some (pyUpper (headerLine s (SPDFl.getD l 'S'))) := by
  obtain ⟨halpha, hupfix, hnsp, -, -, -, hhash⟩ := SPDF_letter_facts hl
  obtain ⟨sp, hshape, hspn, hsp⟩ := header_shape s (SPDFl.getD l 'S')
  have hnohash : ∀ c ∈ headerLine s (SPDFl.getD l 'S'), c ≠ '#' := by
    intro c hc
    rw [hshape] at hc
    rcases List.mem_append.mp hc with h1 | h1
    · rcases List.mem_append.mp h1 with h2 | h2
      · exact alpha_ne_hash (hs2 c h2)
      · rw [hsp c h2]
        decide
    · rw [List.mem_singleton.mp h1]
      exact hhash
  have hstrip : pyStrip (headerLine s (SPDFl.getD l 'S')) =
      headerLine s (SPDFl.getD l 'S') := by
    rw [hshape]
    exact pyStrip_sandwich hs1 hs2 hsp hnsp
  have hup : pyUpper (headerLine s (SPDFl.getD l 'S')) =
      pyUpper s ++ sp ++ [SPDFl.getD l 'S'] := by
    rw [hshape]
    exact pyUpper_sandwich hsp hupfix s
  have h1 : pyUpper (pyStrip (headerLine s (SPDFl.getD l 'S'))) =
      pyUpper s ++ sp ++ [SPDFl.getD l 'S'] := by
    rw [hstrip, hup]
  rw [cookLine_keep hnohash (by rw [h1]; simp)
      (by rw [h1]; exact swith_sandwich_false (by decide) hEND hspn hsp _)
      (by rw [h1]; exact swith_sandwich_false (by decide) hBASIS hspn hsp _),
    h1, ← hup]

theorem parseLine_header {s : Str} (hs2 : ∀ c ∈ s, pyIsAlpha c = true)
    {c0 : Char} {s2 : Str} (hsc : s = c0 :: s2)
    {l : ℕ} (hl : l < 8) (st : PState) :
    parseLine st (pyUpper (headerLine s (SPDFl.getD l 'S'))) =
      .ok ⟨st.shells ++ [⟨l, []⟩], some [SPDFl.getD l 'S']⟩ := by
  subst hsc
  obtain ⟨halpha, hupfix, hnsp, hmap, hnspkey, -, -⟩ := SPDF_letter_facts hl
  obtain ⟨sp, hshape, hspn, hsp⟩ := header_shape (c0 :: s2) (SPDFl.getD l 'S')
  have hs1 : (c0 :: s2 : Str) ≠ [] := by simp
  have hstrip := pyStrip_sandwich (pyUpper_ne_nil hs1) (pyUpper_alpha hs2) hsp hnsp
  have hsplit := pySplit_header hs1 hs2 hsp hspn hnsp
  have hcons : pyUpper (c0 :: s2) ++ sp ++ [SPDFl.getD l 'S'] =
      pyUpperChar c0 :: (pyUpper s2 ++ (sp ++ [SPDFl.getD l 'S'])) := by
    simp [pyUpper]
  have hca : pyIsAlpha (pyUpperChar c0) = true :=
    alpha_upperChar (hs2 c0 (List.mem_cons_self _ _))
  rw [hshape, pyUpper_sandwich hsp hupfix]
  unfold parseLine
  rw [hstrip, hcons]
  simp only []
  rw [if_neg (alpha_ne_hash hca), if_pos hca, ← hcons, hsplit]
  rw [show ([pyUpper (c0 :: s2), [SPDFl.getD l 'S']] : List Str)[1]? =
    some [SPDFl.getD l 'S'] from rfl]
  simp only []
  rw [if_neg hnspkey, hmap]

theorem parseLine_data (A : List Shell) (p : Shell) {key : Str}
    (hkey : key ≠ str "SP") {row : List ℚ} (hrow : row ≠ []) :
    parseLine ⟨A ++ [p], some key⟩ (pyStrip (fmtRow row)) =
      .ok ⟨A ++ [⟨p.l, p.rows ++ [row.map round9]⟩], some key⟩ := by
  rcases hsf : pyStrip (fmtRow row) with _ | ⟨cx, r⟩
  · exact absurd hsf (pyStrip_fmtRow_ne_nil hrow)
  · have hnum : numCharB cx = true := by
      rcases pyStrip_fmtRow_chars cx (by rw [hsf]; exact List.mem_cons_self _ _)
        with rfl | hn
      · exact absurd (pyStrip_head_not_space hsf) (by simp [pyIsSpace])
      · exact hn
    have hnD : ∀ c ∈ pyStrip (fmtRow row), c ≠ 'D' := by
      intro c hc
      rcases pyStrip_fmtRow_chars c hc with rfl | hn
      · decide
      · exact (numChar_ne hn).2.2.2.2.1
    rw [hsf] at hnD
    have hfl : parseFloats (pySplit (replaceDe (cx :: r))) =
        some (row.map round9) := by
      rw [replaceDe_eq_self hnD, ← hsf, pySplit_pyStrip, pySplit_fmtRow hrow,
        parseFloats_map_numStr9]
    have hirr : pyStrip (cx :: r) = cx :: r := by
      rw [← hsf, pyStrip_idem]
    unfold parseLine
    rw [hirr]
    simp only []
    rw [if_neg (numChar_ne hnum).2.2.1,
      if_neg (by rw [(numChar_ne hnum).2.1]; exact Bool.false_ne_true), hfl]
    simp only []
    rw [if_neg hkey]
    rw [appendLast_snoc]

theorem processLines_data_rows {key : Str} (hkey : key ≠ str "SP") :
    ∀ (rows : List (List ℚ)) (A : List Shell) (p : Shell),
      (∀ r ∈ rows, r ≠ []) →
      processLines (rows.map (fun r => pyStrip (fmtRow r))) ⟨A ++ [p], some key⟩ =
        .ok ⟨A ++ [⟨p.l, p.rows ++ rows.map (List.map round9)⟩], some key⟩ := by
  intro rows
  induction rows with
  | nil =>
    intro A p _
    show Except.ok _ = _
    simp
  | cons r rs ih =>
    intro A p hr
    rw [List.map_cons, processLines_cons,
      parseLine_data A p hkey (hr r (List.mem_cons_self _ _))]
    simp only []
    rw [ih A ⟨p.l, p.rows ++ [r.map round9]⟩
      (fun x hx => hr x (List.mem_cons_of_mem _ hx))]
    simp [List.append_assoc]

theorem filterMap_cook_rows : ∀ {rows : List (List ℚ)}, (∀ r ∈ rows, r ≠ []) →
    (rows.map fmtRow).filterMap cookLine =
      rows.map (fun r => pyStrip (fmtRow r)) := by
  intro rows
  induction rows with
  | nil => intro _; rfl
  | cons r rs ih =>
    intro h
    rw [List.map_cons, List.filterMap_cons,
      cookLine_fmtRow (h r (List.mem_cons_self _ _)),
      ih (fun x hx => h x (List.mem_cons_of_mem _ hx)), List.map_cons]

theorem render_reparse_loop {s : Str} (hs1 : s ≠ [])
    (hs2 : ∀ c ∈ s, pyIsAlpha c = true)
    (hEND : swith (pyUpper s) (str "END") = false)
    (hBASIS : swith (pyUpper s) (str "BASIS") = false) :
    ∀ (bs : List Shell),
      (∀ sh ∈ bs, sh.l < 8 ∧ sh.rows ≠ [] ∧ ∀ r ∈ sh.rows, r ≠ []) →
      ∃ body, renderShells s bs = some body ∧
        (∀ li ∈ body, li ≠ [] ∧ ∀ c ∈ li, c ≠ '\n') ∧
        ∀ (A : List Shell) (k : Option Str), ∃ k2,
          processLines (body.filterMap cookLine) ⟨A, k⟩ =
            .ok ⟨A ++ round9Basis bs, k2⟩ := by
  intro bs
  induction bs with
  | nil =>
    intro _
    refine ⟨[], rfl, ?_, ?_⟩
    · intro li hli
      cases hli
    · intro A k
      refine ⟨k, ?_⟩
      show Except.ok _ = _
      simp [round9Basis]
  | cons sh rest ih =>
    intro hf
    obtain ⟨hl8, hrne, hrows⟩ := hf sh (List.mem_cons_self _ _)
    obtain ⟨body', hrend', hchars', hloop'⟩ :=
      ih (fun x hx => hf x (List.mem_cons_of_mem _ hx))
    obtain ⟨sp, hshape, hspn, hsp⟩ := header_shape s (SPDFl.getD sh.l 'S')
    obtain ⟨hla, hluf, hlns, hlm, hlsp, hlnl, hlh⟩ := SPDF_letter_facts hl8
    refine ⟨(headerLine s (SPDFl.getD sh.l 'S') :: sh.rows.map fmtRow) ++ body',
      ?_, ?_, ?_⟩
    · rw [renderShells_cons, SPDF_getElem? hl8, hrend']
    · intro li hli
      rcases List.mem_append.mp hli with h1 | h1
      · rcases List.mem_cons.mp h1 with rfl | h2
        · constructor
          · rw [hshape]
            simp
          · intro c hc
            rw [hshape] at hc
            rcases List.mem_append.mp hc with h3 | h3
            · rcases List.mem_append.mp h3 with h4 | h4
              · exact alpha_ne_nl (hs2 c h4)
              · rw [hsp c h4]
                decide
            · rw [List.mem_singleton.mp h3]
              exact hlnl
        · rcases List.mem_map.mp h2 with ⟨r, hrm, rfl⟩
          constructor
          · exact fmtRow_ne_nil (hrows r hrm)
          · intro c hc
            rcases fmtRow_chars c hc with rfl | hn
            · decide
            · exact (numChar_ne hn).2.2.2.1
      · exact hchars' li h1
    · intro A k
      obtain ⟨c0, s2, hsc⟩ : ∃ c0 s2, s = c0 :: s2 := by
        rcases s with _ | ⟨a, b⟩
        · exact absurd rfl hs1
        · exact ⟨a, b, rfl⟩
      obtain ⟨k2, hk2⟩ := hloop' (A ++ [roundShell sh])
        (some [SPDFl.getD sh.l 'S'])
      refine ⟨k2, ?_⟩
      rw [List.filterMap_append, List.filterMap_cons,
        cookLine_header hs1 hs2 hEND hBASIS hl8, filterMap_cook_rows hrows]
      simp only []
      rw [processLines_append, processLines_cons,
        parseLine_header hs2 hsc hl8 ⟨A, k⟩]
      simp only []
      rw [processLines_data_rows hlsp sh.rows A ⟨sh.l, []⟩ hrows]
      simp only []
      show processLines (body'.filterMap cookLine)
        ⟨A ++ [roundShell sh], some [SPDFl.getD sh.l 'S']⟩ = _
      rw [hk2]
      simp [round9Basis, List.append_assoc]

/-! ### Fixing the final reorder on already-sorted shells -/

theorem sorted_round9Basis {bs : List Shell} (h : sortedByL bs) :
    sortedByL (round9Basis bs) := by
  unfold sortedByL round9Basis
  rw [List.pairwise_map]
  exact h

theorem bsort8_fix {bs : List Shell} (hs : sortedByL bs)
    (hcov : ∀ b ∈ bs, b.l < 8) : bsort8 bs = bs := by
  have hjf : bsort8 bs = joinFilters Shell.l (List.range 8) bs := rfl
  rw [hjf]
  exact joinFilters_fix Shell.l (List.range 8) (List.nodup_range 8)
    (List.pairwise_lt_range 8) bs (fun b hb => List.mem_range.mpr (hcov b hb)) hs

theorem std_symbol_shape {sym s : Str} (h : _std_symbol sym = some s) :
    s ≠ [] ∧ ∀ c ∈ s, pyIsAlpha c = true := by
  unfold _std_symbol at h
  cases hd : sym.dropWhile pyIsDigit <;> rw [hd] at h
  · exact absurd h (by simp)
  · rename_i c r
    simp only [] at h
    by_cases hall : ((c :: r).all pyIsAlpha) = true
    · rw [if_pos hall] at h
      injection h with h2
      rw [← h2]
      constructor
      · simp
      · intro x hx
        rcases List.mem_cons.mp hx with rfl | hx2
        · exact alpha_upperChar
            ((List.all_eq_true.mp hall) c (List.mem_cons_self _ _))
        · rcases List.mem_map.mp hx2 with ⟨d, hd2, rfl⟩
          exact alpha_lowerChar
            ((List.all_eq_true.mp hall) d (List.mem_cons_of_mem _ hd2))
    · rw [if_neg hall] at h
      exact absurd h (by simp)

/-- Claim C1, counterexample: the round-trip contract fails as universally
stated.  A basis segment consisting of a bare header line parses to a shell
with no data rows, and `convert_basis_to_nwchem` then raises `IndexError`
(on `len(b[1]) - 1`), so `parse (convert_basis_to_nwchem sym (parse t sym))`
is not defined, let alone equal to the original parse. -/
theorem claim_C1_counterexample :
    parse (str "# BASIS SET\nNa S") (some (str "Na")) = .ok [⟨0, []⟩] ∧
      convert_basis_to_nwchem (str "Na") [⟨0, []⟩] = .error .indexError := by
  decide

/-- Claim C1, amended: for every basis `b` that `parse` produced for a symbol
`sym` (normalized to `s`), in which every shell has at least one data row and
whose uppercased symbol does not begin like the `END` / `BASIS` keywords,
rendering succeeds and reparsing the rendered text yields exactly `b` with
every number rounded to its 9-decimal-digit formatting (`round9Basis`), the
shells staying in their ascending-`l` order. -/
theorem claim_C1_roundtrip_amended (t sym s : Str) (b : List Shell)
    (hs : _std_symbol sym = some s)
    (hp : parse t (some sym) = .ok b)
    (h2 : ∀ sh ∈ b, sh.rows ≠ [])
    (hEND : swith (pyUpper s) (str "END") = false)
    (hBASIS : swith (pyUpper s) (str "BASIS") = false) :
    ∃ txt, convert_basis_to_nwchem sym b = .ok txt ∧
      parse txt none = .ok (round9Basis b) := by
  unfold parse at hp
  simp only [] at hp
  rw [hs] at hp
  simp only [] at hp
  cases hseg : _search_seg (reSplitBasis t) s <;> rw [hseg] at hp
  · exact absurd hp (by simp)
  rename_i seg
  simp only [] at hp
  unfold _parse at hp
  cases hproc : processLines (cookLines seg) ⟨[], none⟩ <;> rw [hproc] at hp
  · exact absurd hp (by simp)
  rename_i st
  simp only [] at hp
  injection hp with hb
  have hinvst : ∀ sh ∈ st.shells, ShellInv sh :=
    processLines_inv hproc (by intro sh hsh; cases hsh)
  have hinv : ∀ sh ∈ b, ShellInv sh := by
    intro sh hsh
    rw [← hb] at hsh
    exact hinvst sh (mem_joinFilters hsh).1
  have hsorted : sortedByL b := by
    rw [← hb]
    exact (pairwise_joinFilters Shell.l (List.pairwise_lt_range 8) st.shells).imp
      (fun hab => hab.elim le_of_eq le_of_lt)
  have hfacts : ∀ sh ∈ b, sh.l < 8 ∧ sh.rows ≠ [] ∧ ∀ r ∈ sh.rows, r ≠ [] :=
    fun sh hsh => ⟨(hinv sh hsh).1, h2 sh hsh, (hinv sh hsh).2⟩
  obtain ⟨hs1, hs2a⟩ := std_symbol_shape hs
  obtain ⟨body, hrend, hchars, hloop⟩ :=
    render_reparse_loop hs1 hs2a hEND hBASIS b hfacts
  obtain ⟨frs, hfrs⟩ := firstRows?_isSome (fun sh hsh => (hfacts sh hsh).2.1)
  have hks : ∀ l ∈ sortedDedup (b.map (fun sh => sh.l)), l < 8 := by
    intro l hl
    rcases List.mem_map.mp (mem_sortedDedup hl) with ⟨sh, hsh, rfl⟩
    exact (hfacts sh hsh).1
  obtain ⟨cols, hcols⟩ := goComment_isSome (b.map (fun sh => sh.l))
    (b.map (fun sh => (sh.rows.length : ℤ)))
    (frs.map (fun r => (r.length : ℤ) - 1)) hks
  have hconv : convert_basis_to_nwchem sym b =
      .ok (joinLines ((str "#BASIS SET: (" ++ joinWith ',' cols.1 ++
        str ") -> [" ++ joinWith ',' cols.2 ++ str "]") :: body)) := by
    unfold convert_basis_to_nwchem
    rw [hs]
    simp only []
    rw [hfrs]
    simp only []
    rw [hcols]
    simp only []
    rw [hrend]
  refine ⟨_, hconv, ?_⟩
  have hcolchars := goComment_chars (b.map (fun sh => sh.l))
    (b.map (fun sh => (sh.rows.length : ℤ)))
    (frs.map (fun r => (r.length : ℤ) - 1)) hcols
  have hcmne : (str "#BASIS SET: (" ++ joinWith ',' cols.1 ++
      str ") -> [" ++ joinWith ',' cols.2 ++ str "]") ≠ [] := by
    intro h
    exact absurd (List.append_eq_nil.mp h).2 (by decide)
  have hcmnl : ∀ c ∈ (str "#BASIS SET: (" ++ joinWith ',' cols.1 ++
      str ") -> [" ++ joinWith ',' cols.2 ++ str "]"), c ≠ '\n' := by
    intro c hc
    simp only [List.mem_append] at hc
    rcases hc with (((h1 | h1) | h1) | h1) | h1
    · exact (by decide : ∀ x ∈ str "#BASIS SET: (", x ≠ '\n') c h1
    · rcases mem_joinWith h1 with rfl | ⟨e, he, hce⟩
      · decide
      · exact hcolchars.1 e he c hce
    · exact (by decide : ∀ x ∈ str ") -> [", x ≠ '\n') c h1
    · rcases mem_joinWith h1 with rfl | ⟨e, he, hce⟩
      · decide
      · exact hcolchars.2 e he c hce
    · exact (by decide : ∀ x ∈ str "]", x ≠ '\n') c h1
  have hcmcook : cookLine (str "#BASIS SET: (" ++ joinWith ',' cols.1 ++
      str ") -> [" ++ joinWith ',' cols.2 ++ str "]") = none := by
    rw [show str "#BASIS SET: (" ++ joinWith ',' cols.1 ++ str ") -> [" ++
        joinWith ',' cols.2 ++ str "]" =
        '#' :: (str "BASIS SET: (" ++ joinWith ',' cols.1 ++ str ") -> [" ++
          joinWith ',' cols.2 ++ str "]") from by
      rw [show str "#BASIS SET: (" = '#' :: str "BASIS SET: (" from by decide]
      simp]
    exact cookLine_hash _
  have hne : ∀ li ∈ (str "#BASIS SET: (" ++ joinWith ',' cols.1 ++
      str ") -> [" ++ joinWith ',' cols.2 ++ str "]") :: body, li ≠ [] := by
    intro li hli
    rcases List.mem_cons.mp hli with rfl | h1
    · exact hcmne
    · exact (hchars li h1).1
  have hnl : ∀ li ∈ (str "#BASIS SET: (" ++ joinWith ',' cols.1 ++
      str ") -> [" ++ joinWith ',' cols.2 ++ str "]") :: body,
      ∀ c ∈ li, c ≠ '\n' := by
    intro li hli
    rcases List.mem_cons.mp hli with rfl | h1
    · exact hcmnl
    · exact (hchars li h1).2
  obtain ⟨k2, hk2⟩ := hloop [] none
  have hcov9 : ∀ x ∈ round9Basis b, x.l < 8 := by
    intro x hx
    rcases List.mem_map.mp hx with ⟨sh, hsh, rfl⟩
    exact (hfacts sh hsh).1
  unfold parse
  simp only []
  unfold cookLines
  rw [splitlinesPy_joinLines (by simp) hne hnl, List.filterMap_cons, hcmcook]
  simp only []
  unfold _parse
  rw [hk2]
  simp only []
  rw [List.nil_append, bsort8_fix (sorted_round9Basis hsorted) hcov9]

/-- Witness for the amended C1 at a concrete input: a one-shell sodium basis
survives the render / reparse round trip with its numbers 9-digit rounded. -/
theorem claim_C1_witness :
    _std_symbol (str "Na") = some (str "Na") ∧
      parse (str "# BASIS SET\nNa S\n1.0 0.5") (some (str "Na")) =
        .ok [⟨0, [[mkRat 1 1, mkRat 1 2]]⟩] ∧
      (∀ sh ∈ ([⟨0, [[mkRat 1 1, mkRat 1 2]]⟩] : List Shell),
        Shell.rows sh ≠ []) ∧
      swith (pyUpper (str "Na")) (str "END") = false ∧
      swith (pyUpper (str "Na")) (str "BASIS") = false ∧
      ∃ txt, convert_basis_to_nwchem (str "Na")
          [⟨0, [[mkRat 1 1, mkRat 1 2]]⟩] = .ok txt ∧
        parse txt none = .ok (round9Basis [⟨0, [[mkRat 1 1, mkRat 1 2]]⟩]) :=
  ⟨by decide, by decide, by decide, by decide, by decide,
    claim_C1_roundtrip_amended (str "# BASIS SET\nNa S\n1.0 0.5") (str "Na")
      (str "Na") [⟨0, [[mkRat 1 1, mkRat 1 2]]⟩]
      (by decide) (by decide) (by decide) (by decide) (by decide)⟩

end Nwchem
